import Mathlib

/-!
Verification of the Canny-style edge-detection core in
src/LowPoly/EdgeDraw/edgedetect.cpp.

The C++ code is shallowly embedded: `CImg` grids of unsigned 8-bit samples
become `Grid` (a width, a height and a row-major list of `Nat` values,
pixel (x,y) at linear index x + y*w, matching CImg's layout and the
iteration order of cimg_forXY, which runs x fastest).  The float
direction grid is embedded exactly: a stored angle atan2(gy,gx)*180/pi is
represented by the integer pair (gx, gy), a faithful encoding because for
the integer Sobel responses produced by this program two stored float
angles are equal iff the pairs span the same ray, and the sector tests of
discretizeDirection are decided exactly by integer arithmetic (the sector
boundaries tan 22.5 = sqrt 2 - 1 and tan 67.5 = sqrt 2 + 1 are irrational,
so a rational slope never lands on a boundary, and the distance of any
representable slope to a boundary exceeds the float rounding error).

The constructors `CImg gradient(w,h)` and the typedefs CImg/CImgFloat and
struct gradientResp live in edgedraw.h / CImg.h, which are not part of the
sources under verification.  Modelled from the spec: freshly constructed
grids start at the initialized default 0 (spec section 3: border pixels
"remain at their initialized default (0)").
-/

namespace EdgeDetect

/-- A W times H grid of unsigned 8-bit samples, row major (index x + y*w).
Embeds the CImg unsigned-char images of the source. -/
structure Grid where
  w : Nat
  h : Nat
  data : List Nat
deriving DecidableEq, Repr

/-- The float direction grid; each cell stores the pair (gx, gy) whose
angle atan2(gy,gx)*180/pi the C++ code stores as a float. -/
structure DirGrid where
  w : Nat
  h : Nat
  data : List (Int × Int)
deriving DecidableEq, Repr

/-- An RGB input image: each cell is the (r, g, b) triple. -/
structure RGBImage where
  w : Nat
  h : Nat
  data : List (Nat × Nat × Nat)
deriving DecidableEq, Repr

/-- In-bounds test used by every guarded pixel access of the source
(for example the bounds check inside `mark`). -/
abbrev inBounds (w h : Nat) (x y : Int) : Prop :=
  0 ≤ x ∧ x < (w : Int) ∧ 0 ≤ y ∧ y < (h : Int)

/-- Linear pixel read, value at (x,y); out of bounds reads are never
performed by the embedded code (every access is guarded), 0 is returned. -/
def getL (e : Grid) (x y : Int) : Nat :=
  if inBounds e.w e.h x y then e.data.getD (x.toNat + y.toNat * e.w) 0 else 0

/-- Linear pixel write at (x,y); out of bounds writes never happen. -/
def setL (e : Grid) (x y : Int) (v : Nat) : Grid :=
  if inBounds e.w e.h x y then ⟨e.w, e.h, e.data.set (x.toNat + y.toNat * e.w) v⟩ else e

/-- Direction-grid read (default: the pair (0,0), i.e. angle 0, the
initialized float 0.0 of an unwritten cell). -/
def dgetL (d : DirGrid) (x y : Int) : Int × Int :=
  if inBounds d.w d.h x y then d.data.getD (x.toNat + y.toNat * d.w) (0, 0) else (0, 0)

/-- Direction-grid write. -/
def dsetL (d : DirGrid) (x y : Int) (v : Int × Int) : DirGrid :=
  if inBounds d.w d.h x y then ⟨d.w, d.h, d.data.set (x.toNat + y.toNat * d.w) v⟩ else d

/-- RGB pixel read. -/
def rgbGet (im : RGBImage) (x y : Int) : Nat × Nat × Nat :=
  if inBounds im.w im.h x y then im.data.getD (x.toNat + y.toNat * im.w) (0, 0, 0)
  else (0, 0, 0)

/-- Modelled from the spec: a freshly constructed `CImg gradient(w,h)`
(constructor in the external header) starts at the initialized default 0. -/
def zeroGrid (w h : Nat) : Grid := ⟨w, h, List.replicate (w * h) 0⟩

/-- Modelled from the spec: a freshly constructed CImgFloat starts at the
initialized default 0.0, i.e. angle 0, encoded (0,0). -/
def zeroDirGrid (w h : Nat) : DirGrid := ⟨w, h, List.replicate (w * h) (0, 0)⟩

/-- Number of pixels, `edge.width() * edge.height()`. -/
def numPixels (e : Grid) : Nat := e.w * e.h

/-- Fuel-driven search for the floor square root (kernel-reducible, unlike
Nat.sqrt): counts k up while (k+1)^2 still fits below n. -/
def sqrtLoop : Nat → Nat → Nat → Nat
  | 0, _, k => k
  | f + 1, n, k => if (k + 1) * (k + 1) ≤ n then sqrtLoop f n (k + 1) else k

/-- Floor square root, used wherever the C++ stores a float sqrt into an
integer (the correctly rounded double sqrt truncated toward zero is the
real floor at all magnitudes this program produces). -/
def natSqrt (n : Nat) : Nat := sqrtLoop n n 0

theorem sqrtLoop_spec (n : Nat) : ∀ f k, k ≤ n → n ≤ k + f → k * k ≤ n →
    sqrtLoop f n k * sqrtLoop f n k ≤ n ∧ n < (sqrtLoop f n k + 1) * (sqrtLoop f n k + 1) := by
  intro f
  induction f with
  | zero =>
    intro k hk hnk hkk
    simp only [sqrtLoop]
    refine ⟨hkk, ?_⟩
    have hnk' : n = k := le_antisymm (by simpa using hnk) hk
    subst hnk'
    nlinarith
  | succ f ih =>
    intro k hk hnk hkk
    simp only [sqrtLoop]
    by_cases h : (k + 1) * (k + 1) ≤ n
    · simp only [h, if_true]
      exact ih (k + 1) (le_trans (by nlinarith) h) (by omega) h
    · simp only [h, if_false]
      exact ⟨hkk, by omega⟩

/-- natSqrt is the floor square root. -/
theorem natSqrt_spec (n : Nat) :
    natSqrt n * natSqrt n ≤ n ∧ n < (natSqrt n + 1) * (natSqrt n + 1) :=
  sqrtLoop_spec n n 0 (Nat.zero_le n) (by omega) (by simp)

/-- natSqrt agrees with Mathlib's Nat.sqrt. -/
theorem natSqrt_eq_sqrt (n : Nat) : natSqrt n = Nat.sqrt n := by
  have h := natSqrt_spec n
  have h1 : natSqrt n ≤ Nat.sqrt n := by
    have := Nat.le_sqrt.mpr h.1
    simpa using this
  have h2 : Nat.sqrt n ≤ natSqrt n := by
    by_contra hlt
    push_neg at hlt
    have : Nat.sqrt n * Nat.sqrt n ≤ n := Nat.sqrt_le n
    nlinarith [h.2]
  omega

/-! ## discretizeDirection

The C++ takes the stored float angle theta = atan2(gy,gx)*180/pi, folds a
negative theta to theta+180, and bins the result at 22.5 / 67.5 / 112.5 /
157.5 degrees.  On the pair encoding this is an exact sector test on the
slope gy/gx: with t1 = tan 22.5 = sqrt 2 - 1 and t2 = tan 67.5 = sqrt 2 + 1,
and the folded slope u/m where m = |gx| and u = gy*sign(gx),
bin 0 iff |u|/m < t1, bin 1 iff u > 0 and t1 < u/m < t2, bin 2 iff
|u|/m > t2 (and the whole gx = 0, gy not 0 axis), bin 3 iff u < 0 and
t1 < |u|/m < t2.  A rational slope never equals the irrational t1, t2, so
strict and non-strict comparisons coincide and each test is decided by
squaring: |u|/m < sqrt 2 - 1 iff (|u|+m)^2 < 2*m^2, and u/m < sqrt 2 + 1
iff u < m or (u-m)^2 < 2*m^2.  The `else return -1` branch of the C++ is
unreachable (after folding, [0,180] is fully covered), so the result is
always one of 0,1,2,3. -/

/-- Exact embedding of `discretizeDirection(atan2(gy,gx)*180/M_PI)` on the
pair (gx, gy) that encodes the stored float angle. -/
def discretizeDirection (d : Int × Int) : Nat :=
  let gx := d.1
  let gy := d.2
  if gx = 0 then (if gy = 0 then 0 else 2)
  else
    let m : Nat := gx.natAbs
    let u : Int := if 0 < gx then gy else -gy
    if (u.natAbs + m) ^ 2 < 2 * m ^ 2 then 0
    else if 0 < u then
      (if u.natAbs < m ∨ (u.natAbs - m) ^ 2 < 2 * m ^ 2 then 1 else 2)
    else
      (if u.natAbs < m ∨ (u.natAbs - m) ^ 2 < 2 * m ^ 2 then 3 else 2)

/-! ## calculateGradient -/

/-- `SOBEL_X`, first index is the x offset + 1, second the y offset + 1. -/
def SOBEL_X : List (List Int) := [[-1, 0, 1], [-2, 0, 2], [-1, 0, 1]]

/-- `SOBEL_Y`. -/
def SOBEL_Y : List (List Int) := [[-1, -2, -1], [0, 0, 0], [1, 2, 1]]

/-- Kernel coefficient `K[i+1][j+1]` for offsets i, j in -1..1. -/
def kcoef (k : List (List Int)) (i j : Int) : Int :=
  ((k.getD (i + 1).toNat []).getD (j + 1).toNat 0)

/-- The 3x3 offsets in the order of the two nested loops of the source
(i outer from -1 to 1, j inner). -/
def offs3x3 : List (Int × Int) :=
  [(-1,-1), (-1,0), (-1,1), (0,-1), (0,0), (0,1), (1,-1), (1,0), (1,1)]

/-- `calculateGradient(image, x, y)`: integer Sobel responses
gradientX = sum of SOBEL_X[i+1][j+1] * image(x+i, y+j), likewise
gradientY with SOBEL_Y, and the returned gradientResp, namely the
magnitude sqrt(gradientX^2 + gradientY^2) and the direction angle
atan2(gradientY, gradientX) in degrees (encoded as the pair
(gradientX, gradientY)).  The double sqrt is correctly rounded and its
argument is below 2^22, so storing it into the unsigned 8-bit magnitude
grid truncates it to exactly natSqrt (the real floor); values above 255
wrap modulo 256 (the C++ out-of-range narrowing). -/
def calculateGradient (image : Grid) (x y : Int) : Nat × Int × Int :=
  let gradientX :=
    offs3x3.foldl (fun s ij => s + kcoef SOBEL_X ij.1 ij.2 * (getL image (x + ij.1) (y + ij.2) : Int)) 0
  let gradientY :=
    offs3x3.foldl (fun s ij => s + kcoef SOBEL_Y ij.1 ij.2 * (getL image (x + ij.1) (y + ij.2) : Int)) 0
  (natSqrt (gradientX ^ 2 + gradientY ^ 2).toNat % 256, gradientX, gradientY)

/-! ## gradientInGray / gradientInColor -/

/-- The grayscale conversion `0.299*r + 0.587*g + 0.114*b` truncated into
an unsigned char.  The C++ computes it with double literals; this model
uses the exact rational value.  The two can differ by at most one unit
when the exact value sits on the truncation boundary; no claim below
depends on that unit (they use uniform images, where every pixel gets the
same gray value under either arithmetic). -/
def grayValue (p : Nat × Nat × Nat) : Nat :=
  (299 * p.1 + 587 * p.2.1 + 114 * p.2.2) / 1000

/-- The grayscale image built by the first cimg_forXY loop of
gradientInGray. -/
def grayOf (image : RGBImage) : Grid :=
  ⟨image.w, image.h, image.data.map grayValue⟩

/-- Linear index i as the (x, y) pair scanned by cimg_forXY (x fastest),
i.e. x = i % w, y = i / w. -/
def xyOf (w i : Nat) : Int × Int := ((i % w : Nat), (i / w : Nat))

/-- One iteration of the gradient loop at pixel index i: for a non-border
pixel, write the gradientResp of calculateGradient into the magnitude and
direction grids. -/
def gradStep (gray : Grid) (gd : Grid × DirGrid) (i : Nat) : Grid × DirGrid :=
  let x := (xyOf gray.w i).1
  let y := (xyOf gray.w i).2
  if 0 < x ∧ x < (gray.w : Int) - 1 ∧ 0 < y ∧ y < (gray.h : Int) - 1 then
    let gr := calculateGradient gray x y
    (setL gd.1 x y gr.1, dsetL gd.2 x y (gr.2.1, gr.2.2))
  else gd

/-- `gradientInGray`: converts to grayscale, then for every non-border
pixel writes the gradientResp of calculateGradient into the magnitude and
direction grids.  Border pixels are never written. -/
def gradientInGray (image : RGBImage) (gradient : Grid) (direction : DirGrid) :
    Grid × DirGrid :=
  let gray := grayOf image
  (List.range (gray.w * gray.h)).foldl (gradStep gray) (gradient, direction)

/-- `gradientInColor`: the body only prints "Error: Function not
implemented" to stdout and returns; neither grid is written. -/
def gradientInColor (_image : RGBImage) (gradient : Grid) (direction : DirGrid) :
    Grid × DirGrid :=
  (gradient, direction)

/-! ## nonMaxSuppression -/

/-- The value nonMaxSuppression writes at an interior pixel: the two
neighbor magnitudes selected by the discretized direction, and the
retain-or-zero comparison (ties retain, the source uses >=). -/
def nmsPixel (gradient : Grid) (direction : DirGrid) (x y : Int) : Nat :=
  let dir := discretizeDirection (dgetL direction x y)
  let magnitude := getL gradient x y
  let mags :=
    if dir = 0 then (getL gradient (x - 1) y, getL gradient (x + 1) y)
    else if dir = 1 then (getL gradient (x - 1) (y - 1), getL gradient (x + 1) (y + 1))
    else if dir = 2 then (getL gradient x (y - 1), getL gradient x (y + 1))
    else (getL gradient (x + 1) (y - 1), getL gradient (x - 1) (y + 1))
  if mags.1 ≤ magnitude ∧ mags.2 ≤ magnitude then magnitude else 0

/-- One iteration of the suppression loop at pixel index i of a w x h
edge grid: a non-border pixel receives nmsPixel. -/
def nmsStep (w h : Nat) (gradient : Grid) (direction : DirGrid) (e : Grid) (i : Nat) : Grid :=
  let x := (xyOf w i).1
  let y := (xyOf w i).2
  if 0 < x ∧ x < (w : Int) - 1 ∧ 0 < y ∧ y < (h : Int) - 1 then
    setL e x y (nmsPixel gradient direction x y)
  else e

/-- `nonMaxSuppression(edge, gradient, direction)`: for every non-border
pixel of `edge` writes nmsPixel; border pixels of `edge` are not touched.
`gradient` and `direction` are read-only, so every comparison reads the
original magnitudes. -/
def nonMaxSuppression (edge gradient : Grid) (direction : DirGrid) : Grid :=
  (List.range (edge.w * edge.h)).foldl (nmsStep edge.w edge.h gradient direction) edge

/-! ## trackEdge

Statistics of the suppressed grid.  In the C++, `sum`, `sumSq` and
`numPixels` are unsigned ints and `mean`, `stdDev` floats:

* `sum += edge(x,y)` is pure unsigned arithmetic: it wraps modulo 2^32,
  and because wrapping each addition equals wrapping the total, gridSum
  carries the modulus explicitly and is exact for every grid size;
* `float mean = sum / numPixels` divides the two unsigned ints, i.e.
  truncating integer division; the quotient is at most 255 for every
  grid (without wrap sum is at most 255 * numPixels; wrap needs at least
  2^32 / 255 pixels, which caps the wrapped quotient at 255 as well), so
  its float conversion is always exact;
* `sumSq += (edge(x,y) - mean) * (edge(x,y) - mean)` subtracts in float
  (exact, both operands are integers at most 255), squares (exact, at
  most 255^2) and pushes the running sum through an
  unsigned-int-to-float-and-back round trip each iteration.  That round
  trip is the identity exactly as long as the running sum stays below
  2^24: there sumSqT (an exact Nat sum) coincides with the program;
  above 2^24 the float addition rounds (and a float at 2^32 or beyond
  converts back with undefined behavior), so the one universal statement
  about the threshold values, claim_C3, carries `sumSqT e < 2^24` as an
  explicit hypothesis delimiting the exact regime;
* `stdDev = sqrt(sumSq / numPixels)` again divides two unsigned ints;
  the quotient is at most 255^2 (the mean of squared deviations never
  exceeds the largest squared deviation), exact in float;
* `unsigned char highThreshold = mean + 2 * stdDev` truncates the float
  mean + 2*sqrt(q) toward zero.  Because mean is an integer,
  floor(mean + 2*sqrt q) = mean + natSqrt (4*q) and
  floor(mean + sqrt q) = mean + natSqrt q exactly; the correctly rounded
  float sqrt cannot move the value across an integer (when 4*q is not a
  perfect square the distance of mean + 2*sqrt q to the nearest integer
  is at least 1/1021, far above the float error at these magnitudes, and
  when it is a perfect square every quantity is a small dyadic rational,
  exactly representable).  A value above 255 narrows modulo 256
  (out-of-range float-to-unsigned-char narrowing, modelled as the low
  byte).  There is no saturating clamp anywhere. -/

/-- `sum`: the first cimg_forXY accumulation of trackEdge; an unsigned
int, so the accumulated total wraps modulo 2^32 (wrapping once at the
end equals wrapping every +=). -/
def gridSum (e : Grid) : Nat :=
  ((List.range (numPixels e)).foldl (fun s i => s + e.data.getD i 0) 0) % 2 ^ 32

/-- `float mean = sum / numPixels`: unsigned integer division.  The
divisor can be zero — trackEdge reaches that division unguarded, see
udiv and trackEdge below. -/
def meanT (e : Grid) : Nat := gridSum e / numPixels e

/-- `sumSq`: sum of squared deviations from the (truncated) mean, as an
exact Nat sum.  It models the program's float-round-trip accumulation
exactly while it stays below 2^24 (every partial sum of the nonnegative
terms is then below 2^24 too, so each round trip is the identity);
claim_C3 assumes that bound. -/
def sumSqT (e : Grid) : Nat :=
  (List.range (numPixels e)).foldl
    (fun s i => s + ((e.data.getD i 0 : Int) - (meanT e : Int)).natAbs ^ 2) 0

/-- `sumSq / numPixels`, the argument of the float sqrt. -/
def varT (e : Grid) : Nat := sumSqT e / numPixels e

/-- `unsigned char highThreshold = mean + 2 * stdDev`. -/
def highThresholdT (e : Grid) : Nat := (meanT e + natSqrt (4 * varT e)) % 256

/-- `unsigned char lowThreshold = mean + 1 * stdDev`. -/
def lowThresholdT (e : Grid) : Nat := (meanT e + natSqrt (varT e)) % 256

/-- The 8-connected neighborhood offsets scanned by `mark`, in source
order: dx outer from -1 to 1, dy inner (the (0,0) entry is harmless, the
center was just set to 255 and fails the != 255 guard). -/
def nbrOffs : List (Int × Int) :=
  [(-1,-1), (-1,0), (-1,1), (0,-1), (0,0), (0,1), (1,-1), (1,0), (1,1)]

/-- The neighbor loop of `mark`: for each offset in order, if the
neighbor is in bounds, not yet 255 and at least lowThreshold, recurse
(`step` is the recursive call at the next fuel level). -/
def markNbrs (step : Grid → Int → Int → Nat → Grid) (e : Grid) (x y : Int)
    (low : Nat) : List (Int × Int) → Grid
  | [] => e
  | d :: ds =>
    let nx := x + d.1
    let ny := y + d.2
    let e2 := if inBounds e.w e.h nx ny ∧ getL e nx ny ≠ 255 ∧ low ≤ getL e nx ny
              then step e nx ny low else e
    markNbrs step e2 x y low ds

/-- `mark(edge, x, y, lowThreshold)` with explicit fuel: set the pixel to
255, then scan the 8 neighbors recursively.  Every call site (trackEdge
and the recursive guard) passes a pixel that is not yet 255, so each fuel
level newly marks a pixel: fuel numPixels + 1 can never run out (proved
as mark fuel stability below). -/
def markF : Nat → Grid → Int → Int → Nat → Grid
  | 0, e, _, _, _ => e
  | f + 1, e, x, y, low => markNbrs (markF f) (setL e x y 255) x y low nbrOffs

/-- `mark` as called by trackEdge, with sufficient fuel. -/
def mark (e : Grid) (x y : Int) (low : Nat) : Grid :=
  markF (e.data.length + 1) e x y low

/-- One iteration of the seeded flood-marking scan of trackEdge at pixel
index i: a pixel at least highThreshold and not yet 255 seeds `mark`;
otherwise a pixel below lowThreshold is zeroed. -/
def scanStep (w high low : Nat) (acc : Grid) (i : Nat) : Grid :=
  let v := acc.data.getD i 0
  if high ≤ v ∧ v ≠ 255 then mark acc (xyOf w i).1 (xyOf w i).2 low
  else if v < low then ⟨acc.w, acc.h, acc.data.set i 0⟩
  else acc

/-- The seeded flood-marking scan of trackEdge, in raster order.  The
scan reads the grid as already mutated by earlier iterations, exactly
like the in-place C++ loop. -/
def scanPass (e : Grid) (high low : Nat) : Grid :=
  (List.range (numPixels e)).foldl (scanStep e.w high low) e

/-- The final cleanup loop: any pixel not equal to 255 is forced to 0. -/
def cleanup (e : Grid) : Grid :=
  ⟨e.w, e.h, e.data.map (fun v => if v = 255 then v else 0)⟩

/-- C++ unsigned integer division.  A zero divisor is undefined behavior
(there is no wrap, no exception, no defined result), modelled as `none`;
any other divisor gives the truncating quotient. -/
def udiv (a b : Nat) : Option Nat :=
  if b = 0 then none else some (a / b)

/-- `trackEdge(edge)`.  The body starts with
`float mean = sum / numPixels` and has no guard of any kind: the
partiality sits exactly at that division, so the embedding performs
`udiv sum numPixels` first — on a zero-pixel grid the division itself is
reached and is undefined behavior (`none`); otherwise the statistics,
the threshold scan and the cleanup proceed (meanT/sumSqT/varT equal the
respective quotients whenever numPixels is nonzero). -/
def trackEdge (e : Grid) : Option Grid :=
  match udiv (gridSum e) (numPixels e) with
  | none => none
  | some _ => some (cleanup (scanPass e (highThresholdT e) (lowThresholdT e)))

/-- `extractEdgeCanny(image, method)`: fresh zero grids, gradientInGray
for method 0 and gradientInColor otherwise, then nonMaxSuppression into a
fresh zero grid and trackEdge. -/
def extractEdgeCanny (image : RGBImage) (method : Int) : Option Grid :=
  let gradient := zeroGrid image.w image.h
  let direction := zeroDirGrid image.w image.h
  let gd := if method = 0 then gradientInGray image gradient direction
            else gradientInColor image gradient direction
  let edge := nonMaxSuppression (zeroGrid image.w image.h) gd.1 gd.2
  trackEdge edge

/-! ## Instrumented mark

`markTF` is `markF` with its grid threaded unchanged, additionally
returning the list of newly-marked events (the coordinates passed to each
recursive entry of mark), used to state that no pixel is ever re-entered. -/

/-- Neighbor loop of the instrumented mark; concatenates the events of
the recursive calls in order. -/
def markNbrsT (step : Grid → Int → Int → Nat → Grid × List (Int × Int)) (e : Grid)
    (x y : Int) (low : Nat) : List (Int × Int) → Grid × List (Int × Int)
  | [] => (e, [])
  | d :: ds =>
    let nx := x + d.1
    let ny := y + d.2
    if inBounds e.w e.h nx ny ∧ getL e nx ny ≠ 255 ∧ low ≤ getL e nx ny then
      let r := step e nx ny low
      let r2 := markNbrsT step r.1 x y low ds
      (r2.1, r.2 ++ r2.2)
    else markNbrsT step e x y low ds

/-- Instrumented `mark`: same grid as markF, plus the newly-marked
events. -/
def markTF : Nat → Grid → Int → Int → Nat → Grid × List (Int × Int)
  | 0, e, _, _, _ => (e, [])
  | f + 1, e, x, y, low =>
    let r := markNbrsT (markTF f) (setL e x y 255) x y low nbrOffs
    (r.1, (x, y) :: r.2)

/-! ## Basic lemmas about grids and writes -/

theorem getD_set (l : List Nat) (j : Nat) (v : Nat) :
    ∀ i d, (l.set j v).getD i d = if j = i ∧ j < l.length then v else l.getD i d := by
  induction l generalizing j with
  | nil => intro i d; simp [List.set]
  | cons a l ih =>
    intro i d
    cases j with
    | zero =>
      cases i with
      | zero => simp [List.set]
      | succ i => simp [List.set, List.getD]
    | succ j =>
      cases i with
      | zero => simp [List.set, List.getD]
      | succ i =>
        simp only [List.set, List.getD_cons_succ, List.length_cons, ih j i d]
        by_cases h : j = i ∧ j < l.length
        · rw [if_pos h, if_pos (by omega)]
        · rw [if_neg h, if_neg (by omega)]

theorem setL_w (e : Grid) (x y : Int) (v : Nat) : (setL e x y v).w = e.w := by
  unfold setL; split <;> rfl

theorem setL_h (e : Grid) (x y : Int) (v : Nat) : (setL e x y v).h = e.h := by
  unfold setL; split <;> rfl

theorem setL_len (e : Grid) (x y : Int) (v : Nat) :
    (setL e x y v).data.length = e.data.length := by
  unfold setL; split <;> simp

/-- A pixel already 255 survives any single write of 255 (setL only
writes 255 inside mark). -/
theorem setL_keep255 (e : Grid) (x y : Int) (i : Nat)
    (h : e.data.getD i 0 = 255) : (setL e x y 255).data.getD i 0 = 255 := by
  unfold setL
  split
  · rw [getD_set]
    split
    · rfl
    · exact h
  · exact h

/-- After setL at an in-bounds coordinate of a well-sized grid, the
target holds the written value. -/
theorem setL_get_self (e : Grid) (x y : Int) (v : Nat)
    (hb : inBounds e.w e.h x y) (hlen : numPixels e ≤ e.data.length) :
    (setL e x y v).data.getD (x.toNat + y.toNat * e.w) 0 = v := by
  obtain ⟨hx0, hxw, hy0, hyh⟩ := hb
  have hw : 0 < e.w := by omega
  have hx : x.toNat < e.w := by omega
  have hy : y.toNat < e.h := by omega
  have hidx : x.toNat + y.toNat * e.w < e.data.length := by
    have h1 : x.toNat + y.toNat * e.w < e.w * e.h := by
      calc x.toNat + y.toNat * e.w < e.w + y.toNat * e.w := by omega
        _ = (y.toNat + 1) * e.w := by ring
        _ ≤ e.h * e.w := Nat.mul_le_mul_right _ (by omega)
        _ = e.w * e.h := Nat.mul_comm _ _
    exact lt_of_lt_of_le h1 hlen
  unfold setL
  rw [if_pos ⟨hx0, hxw, hy0, hyh⟩]
  simp only [getD_set]
  simp [hidx]

/-! ## mark: shape preservation, 255 monotonicity, target marking -/

/-- markNbrs preserves dimensions and length whenever its step does. -/
theorem markNbrs_shape (step : Grid → Int → Int → Nat → Grid)
    (hs : ∀ e x y low, (step e x y low).w = e.w ∧ (step e x y low).h = e.h ∧
          (step e x y low).data.length = e.data.length) :
    ∀ ds e x y low, (markNbrs step e x y low ds).w = e.w ∧
      (markNbrs step e x y low ds).h = e.h ∧
      (markNbrs step e x y low ds).data.length = e.data.length := by
  intro ds
  induction ds with
  | nil => intro e x y low; exact ⟨rfl, rfl, rfl⟩
  | cons d ds ih =>
    intro e x y low
    simp only [markNbrs]
    split
    · obtain ⟨h1, h2, h3⟩ := ih (step e (x + d.1) (y + d.2) low) x y low
      obtain ⟨g1, g2, g3⟩ := hs e (x + d.1) (y + d.2) low
      exact ⟨h1.trans g1, h2.trans g2, h3.trans g3⟩
    · exact ih e x y low

/-- markF preserves dimensions and length. -/
theorem markF_shape : ∀ f e x y low, (markF f e x y low).w = e.w ∧
    (markF f e x y low).h = e.h ∧ (markF f e x y low).data.length = e.data.length := by
  intro f
  induction f with
  | zero => intro e x y low; exact ⟨rfl, rfl, rfl⟩
  | succ f ih =>
    intro e x y low
    simp only [markF]
    obtain ⟨h1, h2, h3⟩ := markNbrs_shape (markF f) ih nbrOffs (setL e x y 255) x y low
    exact ⟨h1.trans (setL_w e x y 255), h2.trans (setL_h e x y 255),
      h3.trans (setL_len e x y 255)⟩

/-- markNbrs keeps 255 pixels at 255 whenever its step does. -/
theorem markNbrs_keep255 (step : Grid → Int → Int → Nat → Grid)
    (hm : ∀ e x y low i, e.data.getD i 0 = 255 → (step e x y low).data.getD i 0 = 255) :
    ∀ ds e x y low i, e.data.getD i 0 = 255 →
      (markNbrs step e x y low ds).data.getD i 0 = 255 := by
  intro ds
  induction ds with
  | nil => intro e x y low i h; exact h
  | cons d ds ih =>
    intro e x y low i h
    simp only [markNbrs]
    split
    · exact ih _ x y low i (hm e (x + d.1) (y + d.2) low i h)
    · exact ih e x y low i h

/-- mark never un-marks: a pixel at 255 stays 255. -/
theorem markF_keep255 : ∀ f e x y low i, e.data.getD i 0 = 255 →
    (markF f e x y low).data.getD i 0 = 255 := by
  intro f
  induction f with
  | zero => intro e x y low i h; exact h
  | succ f ih =>
    intro e x y low i h
    simp only [markF]
    exact markNbrs_keep255 (markF f) ih nbrOffs (setL e x y 255) x y low i
      (setL_keep255 e x y i h)

/-- With at least one unit of fuel, mark sets the pixel it is called on
to 255 (the first statement of the C++ body). -/
theorem markF_marks (f : Nat) (e : Grid) (x y : Int) (low : Nat)
    (hf : f ≠ 0) (hb : inBounds e.w e.h x y) (hlen : numPixels e ≤ e.data.length) :
    (markF f e x y low).data.getD (x.toNat + y.toNat * e.w) 0 = 255 := by
  obtain ⟨f, rfl⟩ := Nat.exists_eq_succ_of_ne_zero hf
  simp only [markF]
  exact markNbrs_keep255 (markF f) (markF_keep255 f) nbrOffs (setL e x y 255) x y low _
    (setL_get_self e x y 255 hb hlen)

/-! ## scanPass and cleanup lemmas -/

theorem mark_shape (e : Grid) (x y : Int) (low : Nat) :
    (mark e x y low).w = e.w ∧ (mark e x y low).h = e.h ∧
    (mark e x y low).data.length = e.data.length :=
  markF_shape (e.data.length + 1) e x y low

/-- Branch equation: a seed pixel (at least high, not yet 255) calls mark. -/
theorem scanStep_seed (w high low : Nat) (acc : Grid) (i : Nat)
    (h : high ≤ acc.data.getD i 0 ∧ acc.data.getD i 0 ≠ 255) :
    scanStep w high low acc i = mark acc (xyOf w i).1 (xyOf w i).2 low := by
  simp only [scanStep]
  rw [if_pos h]

/-- Branch equation: a pixel already 255 is left unchanged (it fails the
seed test and, being 255, is never below the low threshold). -/
theorem scanStep_at255 (w high low : Nat) (acc : Grid) (i : Nat)
    (h : acc.data.getD i 0 = 255) (h2 : ¬ acc.data.getD i 0 < low) :
    scanStep w high low acc i = acc := by
  simp only [scanStep]
  rw [if_neg (fun hc => hc.2 h), if_neg h2]

/-- Branch equation: a pixel below both thresholds is zeroed. -/
theorem scanStep_zeroed (w high low : Nat) (acc : Grid) (i : Nat)
    (h : ¬ (high ≤ acc.data.getD i 0 ∧ acc.data.getD i 0 ≠ 255))
    (h2 : acc.data.getD i 0 < low) :
    scanStep w high low acc i = ⟨acc.w, acc.h, acc.data.set i 0⟩ := by
  simp only [scanStep]
  rw [if_neg h, if_pos h2]

/-- Branch equation: otherwise nothing happens. -/
theorem scanStep_skip (w high low : Nat) (acc : Grid) (i : Nat)
    (h : ¬ (high ≤ acc.data.getD i 0 ∧ acc.data.getD i 0 ≠ 255))
    (h2 : ¬ acc.data.getD i 0 < low) :
    scanStep w high low acc i = acc := by
  simp only [scanStep]
  rw [if_neg h, if_neg h2]

theorem scanStep_shape (w high low : Nat) (acc : Grid) (i : Nat) :
    (scanStep w high low acc i).w = acc.w ∧ (scanStep w high low acc i).h = acc.h ∧
    (scanStep w high low acc i).data.length = acc.data.length := by
  simp only [scanStep]
  split
  · exact mark_shape acc _ _ low
  · split
    · exact ⟨rfl, rfl, by simp⟩
    · exact ⟨rfl, rfl, rfl⟩

theorem foldl_scanStep_shape (w high low : Nat) :
    ∀ (l : List Nat) (acc : Grid),
      ((l.foldl (scanStep w high low) acc).w = acc.w ∧
       (l.foldl (scanStep w high low) acc).h = acc.h ∧
       (l.foldl (scanStep w high low) acc).data.length = acc.data.length) := by
  intro l
  induction l with
  | nil => intro acc; exact ⟨rfl, rfl, rfl⟩
  | cons a l ih =>
    intro acc
    simp only [List.foldl_cons]
    obtain ⟨h1, h2, h3⟩ := ih (scanStep w high low acc a)
    obtain ⟨g1, g2, g3⟩ := scanStep_shape w high low acc a
    exact ⟨h1.trans g1, h2.trans g2, h3.trans g3⟩

theorem scanPass_shape (e : Grid) (high low : Nat) :
    (scanPass e high low).w = e.w ∧ (scanPass e high low).h = e.h ∧
    (scanPass e high low).data.length = e.data.length :=
  foldl_scanStep_shape e.w high low (List.range (numPixels e)) e

/-- With both thresholds at 0 every pixel of a well-sized grid is 255
after the scan: each raster-scan iteration on a not-yet-255 pixel calls
mark on it, and the first statement of mark sets precisely that pixel. -/
theorem scanPass_zero_all255 (e : Grid) (hlen : e.data.length = numPixels e) :
    ∀ i, i < numPixels e → (scanPass e 0 0).data.getD i 0 = 255 := by
  have main : ∀ n, n ≤ numPixels e →
      (((List.range n).foldl (scanStep e.w 0 0) e).w = e.w ∧
       ((List.range n).foldl (scanStep e.w 0 0) e).h = e.h ∧
       ((List.range n).foldl (scanStep e.w 0 0) e).data.length = e.data.length ∧
       ∀ i, i < n → ((List.range n).foldl (scanStep e.w 0 0) e).data.getD i 0 = 255) := by
    intro n
    induction n with
    | zero => intro _; exact ⟨rfl, rfl, rfl, fun i hi => absurd hi (Nat.not_lt_zero i)⟩
    | succ n ih =>
      intro hn
      obtain ⟨hw, hh, hl, hall⟩ := ih (Nat.le_of_succ_le hn)
      rw [List.range_succ, List.foldl_append, List.foldl_cons, List.foldl_nil]
      set acc := (List.range n).foldl (scanStep e.w 0 0) e with hacc
      have hn2 : n < e.w * e.h := by
        have h0 : numPixels e = e.w * e.h := rfl
        omega
      have hwpos : 0 < e.w := by
        rcases Nat.eq_zero_or_pos e.w with h | h
        · rw [h] at hn2; simp at hn2
        · exact h
      have hx : n % e.w < e.w := Nat.mod_lt n hwpos
      have hy : n / e.w < e.h := Nat.div_lt_of_lt_mul (by rwa [Nat.mul_comm] at hn2)
      have hb : inBounds acc.w acc.h ((n % e.w : Nat) : Int) ((n / e.w : Nat) : Int) := by
        refine ⟨Int.natCast_nonneg _, ?_, Int.natCast_nonneg _, ?_⟩
        · rw [hw]; exact_mod_cast hx
        · rw [hh]; exact_mod_cast hy
      have hidx : (((n % e.w : Nat) : Int)).toNat + (((n / e.w : Nat) : Int)).toNat * acc.w = n := by
        simp only [Int.toNat_natCast]
        rw [hw, Nat.mul_comm]
        exact Nat.mod_add_div n e.w
      refine ⟨?_, ?_, ?_, ?_⟩
      · rw [(scanStep_shape e.w 0 0 acc n).1, hw]
      · rw [(scanStep_shape e.w 0 0 acc n).2.1, hh]
      · rw [(scanStep_shape e.w 0 0 acc n).2.2, hl]
      intro i hi
      by_cases hv : acc.data.getD n 0 = 255
      · rw [scanStep_at255 e.w 0 0 acc n hv (by omega)]
        rcases Nat.lt_succ_iff_lt_or_eq.mp hi with h | h
        · exact hall i h
        · rw [h]; exact hv
      · rw [scanStep_seed e.w 0 0 acc n ⟨Nat.zero_le _, hv⟩]
        have hlen2 : numPixels acc ≤ acc.data.length := by
          show acc.w * acc.h ≤ acc.data.length
          rw [hw, hh, hl, hlen]
          exact le_refl _
        rcases Nat.lt_succ_iff_lt_or_eq.mp hi with h | h
        · exact markF_keep255 _ acc _ _ 0 i (hall i h)
        · subst h
          have hm := markF_marks (acc.data.length + 1) acc ((i % e.w : Nat) : Int)
            ((i / e.w : Nat) : Int) 0 (Nat.succ_ne_zero _) hb hlen2
          show (mark acc (xyOf e.w i).1 (xyOf e.w i).2 0).data.getD i 0 = 255
          unfold mark xyOf
          rwa [hidx] at hm
  intro i hi
  exact (main (numPixels e) (le_refl _)).2.2.2 i hi

/-- On a zero-pixel grid trackEdge reaches the division by zero. -/
theorem trackEdge_eq_none (e : Grid) (h : numPixels e = 0) : trackEdge e = none := by
  unfold trackEdge udiv
  rw [if_pos h]

/-- On a nonempty grid the division succeeds and trackEdge returns the
cleaned-up scan. -/
theorem trackEdge_eq_some (e : Grid) (hne : numPixels e ≠ 0) :
    trackEdge e = some (cleanup (scanPass e (highThresholdT e) (lowThresholdT e))) := by
  unfold trackEdge udiv
  rw [if_neg hne]

/-- Every value of the cleaned-up grid is 0 or 255. -/
theorem cleanup_binary (e : Grid) : ∀ v ∈ (cleanup e).data, v = 0 ∨ v = 255 := by
  intro v hv
  simp only [cleanup, List.mem_map] at hv
  obtain ⟨a, _, ha⟩ := hv
  by_cases h : a = 255
  · right; rw [← ha]; simp [h]
  · left; rw [← ha]; simp [h]

/-! ## Pointwise access lemmas -/

theorem getD_replicate {α : Type} (a d : α) :
    ∀ (n i : Nat), (List.replicate n a).getD i d = if i < n then a else d := by
  intro n
  induction n with
  | zero => intro i; simp
  | succ n ih =>
    intro i
    cases i with
    | zero => simp [List.replicate]
    | succ i =>
      simp only [List.replicate, List.getD_cons_succ, ih i]
      by_cases h : i < n
      · rw [if_pos h, if_pos (by omega)]
      · rw [if_neg h, if_neg (by omega)]

theorem getL_zeroGrid (w h : Nat) (x y : Int) : getL (zeroGrid w h) x y = 0 := by
  unfold getL zeroGrid
  split
  · rw [getD_replicate]
    split <;> rfl
  · rfl

theorem dgetL_zeroDirGrid (w h : Nat) (x y : Int) :
    dgetL (zeroDirGrid w h) x y = (0, 0) := by
  unfold dgetL zeroDirGrid
  split
  · rw [getD_replicate]
    split <;> rfl
  · rfl

/-- Two distinct in-bounds coordinates have distinct linear indices. -/
theorem linIdx_inj (w : Nat) (xa ya xb yb : Nat) (ha : xa < w) (hb : xb < w)
    (h : xa + ya * w = xb + yb * w) : xa = xb ∧ ya = yb := by
  have hxa : (xa + ya * w) % w = xa := by
    rw [Nat.add_mul_mod_self_right, Nat.mod_eq_of_lt ha]
  have hxb : (xb + yb * w) % w = xb := by
    rw [Nat.add_mul_mod_self_right, Nat.mod_eq_of_lt hb]
  have hx : xa = xb := by rw [← hxa, ← hxb, h]
  refine ⟨hx, ?_⟩
  have hw : 0 < w := by omega
  have : ya * w = yb * w := by omega
  exact Nat.eq_of_mul_eq_mul_right hw this

/-- Reading at a coordinate different from the written one is unchanged. -/
theorem getL_setL_ne (e : Grid) (a b x y : Int) (v : Nat)
    (hne : ¬ (a = x ∧ b = y)) : getL (setL e a b v) x y = getL e x y := by
  unfold setL getL
  by_cases hab : inBounds e.w e.h a b
  · rw [if_pos hab]
    by_cases hxy : inBounds e.w e.h x y
    · rw [if_pos hxy, if_pos hxy]
      show (e.data.set (a.toNat + b.toNat * e.w) v).getD (x.toNat + y.toNat * e.w) 0 = _
      rw [getD_set]
      rw [if_neg]
      intro hc
      obtain ⟨hcl, _⟩ := hc
      obtain ⟨h1, h2⟩ := linIdx_inj e.w a.toNat b.toNat x.toNat y.toNat
        (by omega) (by omega) hcl
      exact hne ⟨by omega, by omega⟩
    · rw [if_neg hxy, if_neg hxy]
  · rw [if_neg hab]

/-- Reading back the coordinate just written (well-sized grid). -/
theorem getL_setL_self (e : Grid) (a b : Int) (v : Nat)
    (hab : inBounds e.w e.h a b) (hlen : numPixels e ≤ e.data.length) :
    getL (setL e a b v) a b = v := by
  have h := setL_get_self e a b v hab hlen
  unfold getL
  rw [if_pos (by rw [setL_w, setL_h]; exact hab)]
  rw [show (setL e a b v).w = e.w from setL_w e a b v]
  exact h

theorem dsetL_w (d : DirGrid) (x y : Int) (v : Int × Int) : (dsetL d x y v).w = d.w := by
  unfold dsetL; split <;> rfl

theorem dsetL_h (d : DirGrid) (x y : Int) (v : Int × Int) : (dsetL d x y v).h = d.h := by
  unfold dsetL; split <;> rfl

theorem dgetD_set (l : List (Int × Int)) (j : Nat) (v : Int × Int) :
    ∀ i d, (l.set j v).getD i d = if j = i ∧ j < l.length then v else l.getD i d := by
  induction l generalizing j with
  | nil => intro i d; simp [List.set]
  | cons a l ih =>
    intro i d
    cases j with
    | zero =>
      cases i with
      | zero => simp [List.set]
      | succ i => simp [List.set, List.getD]
    | succ j =>
      cases i with
      | zero => simp [List.set, List.getD]
      | succ i =>
        simp only [List.set, List.getD_cons_succ, List.length_cons, ih j i d]
        by_cases h : j = i ∧ j < l.length
        · rw [if_pos h, if_pos (by omega)]
        · rw [if_neg h, if_neg (by omega)]

theorem dgetL_dsetL_ne (d : DirGrid) (a b x y : Int) (v : Int × Int)
    (hne : ¬ (a = x ∧ b = y)) : dgetL (dsetL d a b v) x y = dgetL d x y := by
  unfold dsetL dgetL
  by_cases hab : inBounds d.w d.h a b
  · rw [if_pos hab]
    by_cases hxy : inBounds d.w d.h x y
    · rw [if_pos hxy, if_pos hxy]
      show (d.data.set (a.toNat + b.toNat * d.w) v).getD (x.toNat + y.toNat * d.w) (0, 0) = _
      rw [dgetD_set]
      rw [if_neg]
      intro hc
      obtain ⟨hcl, _⟩ := hc
      obtain ⟨h1, h2⟩ := linIdx_inj d.w a.toNat b.toNat x.toNat y.toNat
        (by omega) (by omega) hcl
      exact hne ⟨by omega, by omega⟩
    · rw [if_neg hxy, if_neg hxy]
  · rw [if_neg hab]

/-- The raster coordinates of an in-bounds linear index recover the index. -/
theorem xyOf_lin (w : Nat) (i : Nat) :
    ((xyOf w i).1).toNat + ((xyOf w i).2).toNat * w = i := by
  unfold xyOf
  simp only [Int.toNat_natCast]
  rw [Nat.mul_comm]
  exact Nat.mod_add_div i w

/-- The linear index of an in-bounds coordinate scans back to it. -/
theorem lin_xyOf (w h : Nat) (x y : Int) (hb : inBounds w h x y) :
    xyOf w (x.toNat + y.toNat * w) = (x, y) := by
  obtain ⟨hx0, hxw, hy0, hyh⟩ := hb
  have hx : x.toNat < w := by omega
  unfold xyOf
  have h1 : (x.toNat + y.toNat * w) % w = x.toNat := by
    rw [Nat.add_mul_mod_self_right, Nat.mod_eq_of_lt hx]
  have h2 : (x.toNat + y.toNat * w) / w = y.toNat := by
    rw [Nat.add_mul_div_right _ _ (by omega : 0 < w), Nat.div_eq_of_lt hx]
    omega
  rw [h1, h2]
  have : (x.toNat : Int) = x := Int.toNat_of_nonneg hx0
  have : (y.toNat : Int) = y := Int.toNat_of_nonneg hy0
  simp_all

/-- An invariant preserved by every step of a fold holds at the end. -/
theorem foldl_invariant {α β : Type} (f : β → α → β) (P : β → Prop)
    (hstep : ∀ b a, P b → P (f b a)) :
    ∀ (l : List α) (x : β), P x → P (l.foldl f x) := by
  intro l
  induction l with
  | nil => intro x hx; exact hx
  | cons a l ih =>
    intro x hx
    exact ih (f x a) (hstep x a hx)

/-! ## The uniform flat 10 x 10 scenario -/

/-- The uniform flat 10 x 10 input: every RGB pixel is (100,100,100). -/
def uniformTen : RGBImage := ⟨10, 10, List.replicate 100 (100, 100, 100)⟩

/-- On the all-zero 10 x 10 edge grid both adaptive thresholds collapse
to 0 (mean 0, standard deviation 0), so the very first scan iteration
seeds the flood marking (0 is at least 0) and the scan marks every pixel:
trackEdge turns the all-zero grid into the all-255 grid. -/
theorem trackEdge_zeroGrid_ten :
    trackEdge (zeroGrid 10 10) = some ⟨10, 10, List.replicate 100 255⟩ := by
  have hhigh : highThresholdT (zeroGrid 10 10) = 0 := by decide
  have hlow : lowThresholdT (zeroGrid 10 10) = 0 := by decide
  have hlen : (zeroGrid 10 10).data.length = numPixels (zeroGrid 10 10) := by decide
  have hall := scanPass_zero_all255 (zeroGrid 10 10) hlen
  have hsh := scanPass_shape (zeroGrid 10 10) 0 0
  have hdata : (scanPass (zeroGrid 10 10) 0 0).data = List.replicate 100 255 := by
    rw [show (100 : Nat) = (scanPass (zeroGrid 10 10) 0 0).data.length by
      rw [hsh.2.2]; decide]
    apply List.eq_replicate_length.mpr
    intro b hb
    obtain ⟨i, hil, hig⟩ := List.mem_iff_getElem.mp hb
    have h255 := hall i (by rw [hsh.2.2] at hil; exact lt_of_lt_of_le hil (by decide))
    rw [List.getD_eq_getElem _ 0 hil] at h255
    rw [← hig]
    exact h255
  rw [trackEdge_eq_some _ (by decide)]
  rw [hhigh, hlow]
  unfold cleanup
  rw [hdata, hsh.1, hsh.2.1]
  decide

set_option maxRecDepth 4000 in
/-- Gradient plus suppression on the uniform 10 x 10 image give the
all-zero edge grid (uniform gray values, zero Sobel responses, zero
magnitudes everywhere, borders never written). -/
theorem suppressed_uniformTen :
    nonMaxSuppression (zeroGrid 10 10)
      (gradientInGray uniformTen (zeroGrid 10 10) (zeroDirGrid 10 10)).1
      (gradientInGray uniformTen (zeroGrid 10 10) (zeroDirGrid 10 10)).2 =
    zeroGrid 10 10 := by decide

/-- The full method-0 pipeline on the uniform flat 10 x 10 image returns
the all-255 grid. -/
theorem pipeline_uniformTen :
    extractEdgeCanny uniformTen 0 = some ⟨10, 10, List.replicate 100 255⟩ := by
  show trackEdge (nonMaxSuppression (zeroGrid 10 10)
      (gradientInGray uniformTen (zeroGrid 10 10) (zeroDirGrid 10 10)).1
      (gradientInGray uniformTen (zeroGrid 10 10) (zeroDirGrid 10 10)).2) = _
  rw [suppressed_uniformTen, trackEdge_zeroGrid_ten]

/-! ## Claim theorems -/

/-- C1, counterexample.  The claim states that the full method-0 pipeline
on the uniform flat 10 x 10 image (all pixels 100) produces an all-zero
EdgeGrid.  It does not: the suppressed grid is all zero, both adaptive
thresholds collapse to 0, the very first scan pixel (value 0, at least
the high threshold 0 and not 255) seeds the flood marking, and the whole
grid is marked — the pixel at (0,0) of the result is 255, not 0. -/
theorem claim_C1_cex :
    ∃ r, extractEdgeCanny uniformTen 0 = some r ∧ r.data.getD 0 0 ≠ 0 :=
  ⟨⟨10, 10, List.replicate 100 255⟩, pipeline_uniformTen, by decide⟩

/-- C1, amended.  For the uniform flat 10 x 10 input grid whose pixels
all equal 100, running the full pipeline with method 0 produces the
all-255 EdgeGrid: no gradient anywhere, both thresholds collapse to 0,
every pixel seeds or is flooded by the marking pass and survives
cleanup at 255. -/
theorem claim_C1 :
    extractEdgeCanny uniformTen 0 = some ⟨10, 10, List.replicate 100 255⟩ :=
  pipeline_uniformTen

/-- C2.  The claim states that method 1 raises an UnsupportedMode failure
and returns no grid.  In the code, gradientInColor only prints an error
line to stdout and returns normally; the pipeline keeps going on the
never-written gradient grids and extractEdgeCanny returns a grid as if it
were a valid result (on a 1 x 1 input it even returns the all-255 grid,
because the zero statistics make every pixel a strong seed). -/
theorem claim_C2 :
    extractEdgeCanny ⟨1, 1, [(5, 5, 5)]⟩ 1 = some ⟨1, 1, [255]⟩ := by decide

/-- C4.  The claim states that trackEdge rejects a zero-pixel grid before
the statistics, so that no division by zero occurs.  The source has no
such guard: trackEdge's body begins with `mean = sum / numPixels`, and on
a 0 x 0 grid that unsigned division is reached with divisor
numPixels = 0 — undefined behavior, not a rejection.  The theorem
exhibits exactly that: the divisor is 0, the division itself (udiv, the
embedding of C++ unsigned division) is undefined, and trackEdge
propagates the undefined division rather than rejecting beforehand. -/
theorem claim_C4 :
    numPixels ⟨0, 0, []⟩ = 0 ∧
    udiv (gridSum ⟨0, 0, []⟩) (numPixels ⟨0, 0, []⟩) = none ∧
    trackEdge ⟨0, 0, []⟩ = none := by decide

/-- C5.  After trackEdge returns on a grid with at least one pixel, every
pixel of the result is 0 or 255: the final cleanup loop forces any pixel
other than 255 to 0. -/
theorem claim_C5 (e r : Grid) (hne : numPixels e ≠ 0)
    (hr : trackEdge e = some r) : ∀ v ∈ r.data, v = 0 ∨ v = 255 := by
  rw [trackEdge_eq_some e hne] at hr
  simp only [Option.some.injEq] at hr
  subst hr
  exact cleanup_binary _

/-- C5 witness: a concrete 1 x 1 grid. -/
theorem claim_C5_witness :
    numPixels ⟨1, 1, [7]⟩ ≠ 0 ∧ ∀ v ∈ (⟨1, 1, [255]⟩ : Grid).data, v = 0 ∨ v = 255 :=
  ⟨by decide, claim_C5 ⟨1, 1, [7]⟩ ⟨1, 1, [255]⟩ (by decide) (by decide)⟩

/-! ## Idempotence analysis (C6) -/

theorem set_getD_self (l : List Nat) : ∀ i, l.set i (l.getD i 0) = l := by
  induction l with
  | nil => intro i; rfl
  | cons a l ih =>
    intro i
    cases i with
    | zero => rfl
    | succ i => simp only [List.set, List.getD_cons_succ, ih i]

theorem foldl_fixed {α β : Type} (f : β → α → β) (x : β) (l : List α)
    (h : ∀ a ∈ l, f x a = x) : l.foldl f x = x := by
  induction l with
  | nil => rfl
  | cons a l ih =>
    simp only [List.foldl_cons, h a (List.mem_cons_self a l)]
    exact ih (fun b hb => h b (List.mem_cons_of_mem a hb))

theorem map_fixed {α : Type} (f : α → α) (l : List α)
    (h : ∀ a ∈ l, f a = a) : l.map f = l := by
  induction l with
  | nil => rfl
  | cons a l ih =>
    simp only [List.map_cons, h a (List.mem_cons_self a l)]
    rw [ih (fun b hb => h b (List.mem_cons_of_mem a hb))]

/-- A successful trackEdge run means the grid was non-empty and the
result is exactly the cleanup of the scan pass. -/
theorem trackEdge_some_eq (e r : Grid) (hr : trackEdge e = some r) :
    numPixels e ≠ 0 ∧ r = cleanup (scanPass e (highThresholdT e) (lowThresholdT e)) := by
  by_cases h : numPixels e = 0
  · rw [trackEdge_eq_none e h] at hr; cases hr
  · rw [trackEdge_eq_some e h] at hr
    simp only [Option.some.injEq] at hr
    exact ⟨h, hr.symm⟩

theorem trackEdge_shape (e r : Grid) (hr : trackEdge e = some r) :
    r.w = e.w ∧ r.h = e.h ∧ r.data.length = e.data.length := by
  obtain ⟨-, rfl⟩ := trackEdge_some_eq e r hr
  have hs := scanPass_shape e (highThresholdT e) (lowThresholdT e)
  refine ⟨hs.1, hs.2.1, ?_⟩
  show ((scanPass e (highThresholdT e) (lowThresholdT e)).data.map _).length = _
  rw [List.length_map]
  exact hs.2.2

/-- C6, counterexample.  The claim states trackEdge is idempotent on its
own output for every non-empty grid.  On the 1 x 2 grid [1, 3] the first
run computes mean 2, stddev 1, thresholds high 4 / low 3, so no pixel is
strong and the output is [0, 0]; re-running on [0, 0] collapses both
thresholds to 0, the first pixel seeds the flood marking and the second
run returns [255, 255], not [0, 0]. -/
theorem claim_C6_cex :
    trackEdge ⟨2, 1, [1, 3]⟩ = some ⟨2, 1, [0, 0]⟩ ∧
    trackEdge ⟨2, 1, [0, 0]⟩ = some ⟨2, 1, [255, 255]⟩ ∧
    (⟨2, 1, [255, 255]⟩ : Grid) ≠ ⟨2, 1, [0, 0]⟩ :=
  ⟨by decide, by decide, by decide⟩

/-- C6, amended.  Re-running trackEdge on its own (binary) output leaves
it unchanged provided the high threshold recomputed on that output is
nonzero.  (When it is zero — e.g. an all-zero first output — every pixel
is a strong seed and the second run floods the grid to all 255, the
counterexample above.)  Pixels at 255 fail the seed test and are at least
the low threshold; pixels at 0 are below the nonzero high threshold, and
zeroing a 0 pixel changes nothing, so the scan is the identity and the
cleanup of a binary grid is the identity. -/
theorem claim_C6 (g r : Grid) (hglen : g.data.length = numPixels g)
    (hg : trackEdge g = some r) (hhigh : highThresholdT r ≠ 0) :
    trackEdge r = some r := by
  obtain ⟨hne, hreq⟩ := trackEdge_some_eq g r hg
  have hbin : ∀ v ∈ r.data, v = 0 ∨ v = 255 := by
    rw [hreq]; exact cleanup_binary _
  have hsh := trackEdge_shape g r hg
  have hnum : numPixels r = numPixels g := by
    show r.w * r.h = g.w * g.h
    rw [hsh.1, hsh.2.1]
  have hrlen : r.data.length = numPixels r := by
    rw [hsh.2.2, hglen, hnum]
  have hrne : numPixels r ≠ 0 := by omega
  have hlow : lowThresholdT r < 256 := Nat.mod_lt _ (by omega)
  have hscan : scanPass r (highThresholdT r) (lowThresholdT r) = r := by
    unfold scanPass
    apply foldl_fixed
    intro i hi
    have hi3 : i < r.data.length := by
      have := List.mem_range.mp hi
      omega
    have hv : r.data.getD i 0 = 0 ∨ r.data.getD i 0 = 255 := by
      rw [List.getD_eq_getElem _ 0 hi3]
      exact hbin _ (List.getElem_mem hi3)
    rcases hv with hv | hv
    · have hc : ¬ (highThresholdT r ≤ r.data.getD i 0 ∧ r.data.getD i 0 ≠ 255) := by
        intro hc; rw [hv] at hc; omega
      by_cases hl : r.data.getD i 0 < lowThresholdT r
      · rw [scanStep_zeroed r.w (highThresholdT r) (lowThresholdT r) r i hc hl]
        show (⟨r.w, r.h, r.data.set i 0⟩ : Grid) = r
        rw [show r.data.set i 0 = r.data by
          conv_lhs => rw [← hv]
          exact set_getD_self r.data i]
      · exact scanStep_skip r.w (highThresholdT r) (lowThresholdT r) r i hc hl
    · exact scanStep_at255 r.w (highThresholdT r) (lowThresholdT r) r i hv (by omega)
  have hclean : cleanup r = r := by
    show (⟨r.w, r.h, r.data.map (fun v => if v = 255 then v else 0)⟩ : Grid) = r
    rw [map_fixed _ _ (by
      intro a ha
      rcases hbin a ha with h | h <;> simp [h])]
  rw [trackEdge_eq_some r hrne, hscan, hclean]

/-- C6 witness: the 1 x 1 grid [7] maps to [255], whose recomputed high
threshold is 255; the second run leaves [255] unchanged. -/
theorem claim_C6_witness :
    (⟨1, 1, [7]⟩ : Grid).data.length = numPixels ⟨1, 1, [7]⟩ ∧
    highThresholdT ⟨1, 1, [255]⟩ ≠ 0 ∧
    trackEdge ⟨1, 1, [255]⟩ = some ⟨1, 1, [255]⟩ :=
  ⟨by decide, by decide,
   claim_C6 ⟨1, 1, [7]⟩ ⟨1, 1, [255]⟩ (by decide) (by decide) (by decide)⟩

/-! ## The marking recursion: visited-once and termination (C10) -/

/-- Grid monotonicity: every pixel already at 255 is still 255. -/
def keepG (e e' : Grid) : Prop := ∀ a b : Int, getL e a b = 255 → getL e' a b = 255

theorem keepG_trans {e1 e2 e3 : Grid} (h1 : keepG e1 e2) (h2 : keepG e2 e3) :
    keepG e1 e3 := fun a b h => h2 a b (h1 a b h)

/-- A coordinate in bounds has its linear index below w * h. -/
theorem lin_lt (w h : Nat) (x y : Int) (hb : inBounds w h x y) :
    x.toNat + y.toNat * w < w * h := by
  obtain ⟨hx0, hxw, hy0, hyh⟩ := hb
  have hx : x.toNat < w := by omega
  have hy : y.toNat < h := by omega
  calc x.toNat + y.toNat * w < w + y.toNat * w := by omega
    _ = (y.toNat + 1) * w := by ring
    _ ≤ h * w := Nat.mul_le_mul_right _ (by omega)
    _ = w * h := Nat.mul_comm _ _

theorem getL_eq_getD (e : Grid) (x y : Int) (hb : inBounds e.w e.h x y) :
    getL e x y = e.data.getD (x.toNat + y.toNat * e.w) 0 := by
  unfold getL
  rw [if_pos hb]

theorem setL_keepG (e : Grid) (x y : Int) : keepG e (setL e x y 255) := by
  intro a b h
  by_cases hab : inBounds e.w e.h a b
  · rw [getL_eq_getD _ _ _ hab] at h
    rw [getL_eq_getD _ _ _ (by rw [setL_w, setL_h]; exact hab)]
    rw [setL_w]
    exact setL_keep255 e x y _ h
  · rw [getL] at h
    rw [if_neg hab] at h
    cases h

theorem markF_keepG (f : Nat) (e : Grid) (x y : Int) (low : Nat) :
    keepG e (markF f e x y low) := by
  intro a b h
  by_cases hab : inBounds e.w e.h a b
  · rw [getL_eq_getD _ _ _ hab] at h
    have hsh := markF_shape f e x y low
    rw [getL_eq_getD _ _ _ (by rw [hsh.1, hsh.2.1]; exact hab)]
    rw [hsh.1]
    exact markF_keep255 f e x y low _ h
  · rw [getL] at h
    rw [if_neg hab] at h
    cases h

/-- The instrumented neighbor loop computes the same grid as the plain
one whenever their steps do. -/
theorem markNbrsT_fst (step : Grid → Int → Int → Nat → Grid × List (Int × Int))
    (stepG : Grid → Int → Int → Nat → Grid)
    (hstep : ∀ e x y low, (step e x y low).1 = stepG e x y low) :
    ∀ ds e x y low,
      (markNbrsT step e x y low ds).1 = markNbrs stepG e x y low ds := by
  intro ds
  induction ds with
  | nil => intro e x y low; rfl
  | cons d ds ih =>
    intro e x y low
    simp only [markNbrsT, markNbrs]
    split
    · rw [ih, hstep]
    · exact ih e x y low

/-- The instrumented mark computes the same grid as mark. -/
theorem markTF_fst : ∀ f e x y low, (markTF f e x y low).1 = markF f e x y low := by
  intro f
  induction f with
  | zero => intro e x y low; rfl
  | succ f ih =>
    intro e x y low
    simp only [markTF, markF]
    exact markNbrsT_fst (markTF f) (markF f) ih nbrOffs (setL e x y 255) x y low

theorem markTF_shape (f : Nat) (e : Grid) (x y : Int) (low : Nat) :
    (markTF f e x y low).1.w = e.w ∧ (markTF f e x y low).1.h = e.h ∧
    (markTF f e x y low).1.data.length = e.data.length := by
  rw [markTF_fst]
  exact markF_shape f e x y low

theorem markTF_keepG (f : Nat) (e : Grid) (x y : Int) (low : Nat) :
    keepG e (markTF f e x y low).1 := by
  rw [markTF_fst]
  exact markF_keepG f e x y low

/-- The invariant of the instrumented neighbor loop: given that the step
(at fuel f) satisfies the marking invariant, the loop's newly-marked
events are distinct pixels, each in bounds, not yet 255 on entry, and
255 in the resulting grid, and the grid only gains 255 pixels. -/
theorem markNbrsT_inv (f : Nat)
    (hstep : ∀ e x y low, numPixels e ≤ e.data.length →
      inBounds e.w e.h x y → getL e x y ≠ 255 →
      keepG e (markTF f e x y low).1 ∧ (markTF f e x y low).2.Nodup ∧
      ∀ p ∈ (markTF f e x y low).2, inBounds e.w e.h p.1 p.2 ∧
        getL e p.1 p.2 ≠ 255 ∧ getL (markTF f e x y low).1 p.1 p.2 = 255) :
    ∀ ds e x y low, numPixels e ≤ e.data.length →
      keepG e (markNbrsT (markTF f) e x y low ds).1 ∧
      (markNbrsT (markTF f) e x y low ds).2.Nodup ∧
      ∀ p ∈ (markNbrsT (markTF f) e x y low ds).2,
        inBounds e.w e.h p.1 p.2 ∧ getL e p.1 p.2 ≠ 255 ∧
        getL (markNbrsT (markTF f) e x y low ds).1 p.1 p.2 = 255 := by
  intro ds
  induction ds with
  | nil =>
    intro e x y low _
    exact ⟨fun a b h => h, List.nodup_nil, fun p hp => absurd hp (List.not_mem_nil p)⟩
  | cons d ds ih =>
    intro e x y low hlen
    simp only [markNbrsT]
    split
    · rename_i hg
      obtain ⟨hgb, hg255, _⟩ := hg
      obtain ⟨k1, n1, e1⟩ := hstep e (x + d.1) (y + d.2) low hlen hgb hg255
      have hsh1 := markTF_shape f e (x + d.1) (y + d.2) low
      have hlen1 : numPixels (markTF f e (x + d.1) (y + d.2) low).1 ≤
          (markTF f e (x + d.1) (y + d.2) low).1.data.length := by
        show (markTF f e (x + d.1) (y + d.2) low).1.w *
          (markTF f e (x + d.1) (y + d.2) low).1.h ≤ _
        rw [hsh1.1, hsh1.2.1, hsh1.2.2]
        exact hlen
      obtain ⟨k2, n2, e2⟩ := ih (markTF f e (x + d.1) (y + d.2) low).1 x y low hlen1
      refine ⟨keepG_trans k1 k2, ?_, ?_⟩
      · refine List.Nodup.append n1 n2 ?_
        intro p hp1 hp2
        have h1 := (e1 p hp1).2.2
        have h2 := (e2 p hp2).2.1
        exact h2 h1
      · intro p hp
        rcases List.mem_append.mp hp with hp | hp
        · obtain ⟨hb1, hne1, h255⟩ := e1 p hp
          exact ⟨hb1, hne1, k2 p.1 p.2 h255⟩
        · obtain ⟨hb2, hne2, h255⟩ := e2 p hp
          refine ⟨by rw [← hsh1.1, ← hsh1.2.1]; exact hb2, ?_, h255⟩
          intro hc
          exact hne2 (k1 p.1 p.2 hc)
    · exact ih e x y low hlen

/-- The marking invariant of the instrumented mark: the newly-marked
events are pairwise distinct pixels (a pixel already 255 is never
re-entered), each of them was not 255 when the call started and is 255
when it returns, and the grid only gains 255 pixels. -/
theorem markTF_inv : ∀ f e x y low, numPixels e ≤ e.data.length →
    inBounds e.w e.h x y → getL e x y ≠ 255 →
    keepG e (markTF f e x y low).1 ∧ (markTF f e x y low).2.Nodup ∧
    ∀ p ∈ (markTF f e x y low).2, inBounds e.w e.h p.1 p.2 ∧
      getL e p.1 p.2 ≠ 255 ∧ getL (markTF f e x y low).1 p.1 p.2 = 255 := by
  intro f
  induction f with
  | zero =>
    intro e x y low _ _ _
    exact ⟨fun a b h => h, List.nodup_nil, fun p hp => absurd hp (List.not_mem_nil p)⟩
  | succ f ih =>
    intro e x y low hlen hb hx
    have hlen1 : numPixels (setL e x y 255) ≤ (setL e x y 255).data.length := by
      show (setL e x y 255).w * (setL e x y 255).h ≤ _
      rw [setL_w, setL_h, setL_len]
      exact hlen
    obtain ⟨k2, n2, e2⟩ := markNbrsT_inv f ih nbrOffs (setL e x y 255) x y low hlen1
    have hset255 : getL (setL e x y 255) x y = 255 := getL_setL_self e x y 255 hb hlen
    simp only [markTF]
    refine ⟨keepG_trans (setL_keepG e x y) k2, ?_, ?_⟩
    · refine List.Nodup.cons ?_ n2
      intro hc
      exact (e2 (x, y) hc).2.1 hset255
    · intro p hp
      rcases List.mem_cons.mp hp with hp | hp
      · subst hp
        exact ⟨hb, hx, k2 x y hset255⟩
      · obtain ⟨hb2, hne2, h255⟩ := e2 p hp
        refine ⟨by rw [← setL_w e x y 255, ← setL_h e x y 255]; exact hb2, ?_, h255⟩
        intro hc
        exact hne2 (setL_keepG e x y p.1 p.2 hc)

/-- Pointwise effect of marking on a stored value: unchanged or 255. -/
def markedVal (a b : Nat) : Prop := b = a ∨ b = 255

/-- The number of not-yet-255 entries, the decreasing measure of mark. -/
def nmL (l : List Nat) : Nat := l.countP (fun v => decide (v ≠ 255))

theorem markedVal_refl : ∀ l : List Nat, List.Forall₂ markedVal l l := by
  intro l
  induction l with
  | nil => exact List.Forall₂.nil
  | cons a l ih => exact List.Forall₂.cons (Or.inl rfl) ih

theorem markedVal_trans : ∀ {l1 l2 l3 : List Nat}, List.Forall₂ markedVal l1 l2 →
    List.Forall₂ markedVal l2 l3 → List.Forall₂ markedVal l1 l3 := by
  intro l1 l2 l3 h12
  induction h12 generalizing l3 with
  | nil => intro h23; cases h23; exact List.Forall₂.nil
  | cons hab h ih =>
    intro h23
    cases h23 with
    | cons hbc h' =>
      refine List.Forall₂.cons ?_ (ih h')
      rcases hbc with rfl | rfl
      · exact hab
      · exact Or.inr rfl

theorem set_markedVal : ∀ (l : List Nat) (i : Nat), List.Forall₂ markedVal l (l.set i 255) := by
  intro l
  induction l with
  | nil => intro i; exact List.Forall₂.nil
  | cons a l ih =>
    intro i
    cases i with
    | zero => exact List.Forall₂.cons (Or.inr rfl) (markedVal_refl l)
    | succ i => exact List.Forall₂.cons (Or.inl rfl) (ih i)

theorem setL_markedVal (e : Grid) (x y : Int) :
    List.Forall₂ markedVal e.data (setL e x y 255).data := by
  unfold setL
  split
  · exact set_markedVal e.data _
  · exact markedVal_refl e.data

theorem markNbrs_markedVal (step : Grid → Int → Int → Nat → Grid)
    (hstep : ∀ e x y low, List.Forall₂ markedVal e.data (step e x y low).data) :
    ∀ ds e x y low, List.Forall₂ markedVal e.data (markNbrs step e x y low ds).data := by
  intro ds
  induction ds with
  | nil => intro e x y low; exact markedVal_refl e.data
  | cons d ds ih =>
    intro e x y low
    simp only [markNbrs]
    split
    · exact markedVal_trans (hstep e _ _ low) (ih _ x y low)
    · exact ih e x y low

theorem markF_markedVal : ∀ f e x y low,
    List.Forall₂ markedVal e.data (markF f e x y low).data := by
  intro f
  induction f with
  | zero => intro e x y low; exact markedVal_refl e.data
  | succ f ih =>
    intro e x y low
    simp only [markF]
    exact markedVal_trans (setL_markedVal e x y)
      (markNbrs_markedVal (markF f) ih nbrOffs (setL e x y 255) x y low)

theorem nmL_le_of_markedVal : ∀ {l l' : List Nat}, List.Forall₂ markedVal l l' →
    nmL l' ≤ nmL l := by
  intro l l' h
  induction h with
  | nil => exact le_refl _
  | cons hab h ih =>
    rename_i a b l1 l2
    simp only [nmL, List.countP_cons] at ih ⊢
    rcases hab with rfl | rfl
    · omega
    · simp only [decide_eq_true_eq]
      have : (if (255 : Nat) ≠ 255 then 1 else 0) = 0 := by simp
      omega

theorem nmL_set_lt : ∀ (l : List Nat) (i : Nat), i < l.length → l.getD i 0 ≠ 255 →
    nmL (l.set i 255) < nmL l := by
  intro l
  induction l with
  | nil => intro i hi; cases hi
  | cons a l ih =>
    intro i hi ha
    cases i with
    | zero =>
      simp only [List.getD_cons_zero] at ha
      simp only [List.set, nmL, List.countP_cons, decide_eq_true_eq]
      have h1 : (if (255 : Nat) ≠ 255 then 1 else 0) = 0 := by simp
      have h2 : (if a ≠ 255 then 1 else 0) = 1 := by simp [ha]
      omega
    | succ i =>
      simp only [List.getD_cons_succ] at ha
      simp only [List.set, nmL, List.countP_cons]
      have := ih i (by simpa using hi) ha
      simp only [nmL] at this
      omega

theorem nmL_pos : ∀ (l : List Nat) (i : Nat), i < l.length → l.getD i 0 ≠ 255 →
    0 < nmL l := by
  intro l
  induction l with
  | nil => intro i hi; cases hi
  | cons a l ih =>
    intro i hi ha
    cases i with
    | zero =>
      simp only [List.getD_cons_zero] at ha
      simp only [nmL, List.countP_cons, decide_eq_true_eq]
      have : (if a ≠ 255 then 1 else 0) = 1 := by simp [ha]
      omega
    | succ i =>
      simp only [List.getD_cons_succ] at ha
      have := ih i (by simpa using hi) ha
      simp only [nmL, List.countP_cons] at this ⊢
      omega

theorem nmL_le_length (l : List Nat) : nmL l ≤ l.length := List.countP_le_length _

/-- Fuel stability of mark: any two fuel budgets strictly above the
number of not-yet-255 entries produce the same grid — the recursion
bottoms out before the fuel does, because every recursive entry marks a
new pixel. -/
theorem markF_fuel_stable : ∀ n (e : Grid) (f g : Nat) (x y : Int) (low : Nat),
    nmL e.data ≤ n →
    numPixels e ≤ e.data.length → inBounds e.w e.h x y → getL e x y ≠ 255 →
    nmL e.data < f → nmL e.data < g →
    markF f e x y low = markF g e x y low := by
  intro n
  induction n with
  | zero =>
    intro e f g x y low hn hlen hb hx _ _
    exfalso
    have hlin : x.toNat + y.toNat * e.w < e.data.length :=
      lt_of_lt_of_le (lin_lt e.w e.h x y hb) hlen
    rw [getL_eq_getD e x y hb] at hx
    have := nmL_pos e.data _ hlin hx
    omega
  | succ n ih =>
    intro e f g x y low hn hlen hb hx hf hg
    have hnm1 : 1 ≤ nmL e.data := by
      have hlin : x.toNat + y.toNat * e.w < e.data.length :=
        lt_of_lt_of_le (lin_lt e.w e.h x y hb) hlen
      rw [getL_eq_getD e x y hb] at hx
      exact nmL_pos e.data _ hlin hx
    obtain ⟨f', rfl⟩ := Nat.exists_eq_succ_of_ne_zero (by omega : f ≠ 0)
    obtain ⟨g', rfl⟩ := Nat.exists_eq_succ_of_ne_zero (by omega : g ≠ 0)
    simp only [markF]
    have hset_lt : nmL (setL e x y 255).data < nmL e.data := by
      unfold setL
      rw [if_pos hb]
      refine nmL_set_lt e.data _ (lt_of_lt_of_le (lin_lt e.w e.h x y hb) hlen) ?_
      rw [getL_eq_getD e x y hb] at hx
      exact hx
    have hSN : ∀ ds (eA : Grid), eA.w = e.w → eA.h = e.h →
        numPixels eA ≤ eA.data.length → nmL eA.data < nmL e.data →
        markNbrs (markF f') eA x y low ds = markNbrs (markF g') eA x y low ds := by
      intro ds
      induction ds with
      | nil => intro eA _ _ _ _; rfl
      | cons d ds ihds =>
        intro eA hw hh hlenA hnmA
        simp only [markNbrs]
        split
        · rename_i hguard
          obtain ⟨hgb, hg255, _⟩ := hguard
          have heq : markF f' eA (x + d.1) (y + d.2) low =
              markF g' eA (x + d.1) (y + d.2) low := by
            refine ih eA f' g' (x + d.1) (y + d.2) low (by omega) hlenA hgb hg255
              (by omega) (by omega)
          rw [heq]
          have hshg := markF_shape g' eA (x + d.1) (y + d.2) low
          refine ihds (markF g' eA (x + d.1) (y + d.2) low)
            (by rw [hshg.1, hw]) (by rw [hshg.2.1, hh]) ?_ ?_
          · show (markF g' eA _ _ low).w * (markF g' eA _ _ low).h ≤ _
            rw [hshg.1, hshg.2.1, hshg.2.2]
            exact hlenA
          · exact lt_of_le_of_lt
              (nmL_le_of_markedVal (markF_markedVal g' eA (x + d.1) (y + d.2) low)) hnmA
        · exact ihds eA hw hh hlenA hnmA
    refine hSN nbrOffs (setL e x y 255) (setL_w e x y 255) (setL_h e x y 255) ?_ hset_lt
    show (setL e x y 255).w * (setL e x y 255).h ≤ _
    rw [setL_w, setL_h, setL_len]
    exact hlen

/-- C10.  Every pixel is visited at most once as a newly-marked event:
the instrumented marking's event list has no duplicates, each event
pixel was not yet 255 when trackEdge's mark call started (a 255 pixel is
never re-entered), the instrumentation computes exactly mark's grid, and
the recursion terminates with any fuel beyond the pixel count — the
result no longer depends on the fuel. -/
theorem claim_C10 (e : Grid) (x y : Int) (low : Nat)
    (hlen : numPixels e ≤ e.data.length)
    (hb : inBounds e.w e.h x y) (hx : getL e x y ≠ 255) :
    (markTF (e.data.length + 1) e x y low).2.Nodup ∧
    (∀ p ∈ (markTF (e.data.length + 1) e x y low).2,
        inBounds e.w e.h p.1 p.2 ∧ getL e p.1 p.2 ≠ 255 ∧
        getL (markTF (e.data.length + 1) e x y low).1 p.1 p.2 = 255) ∧
    (markTF (e.data.length + 1) e x y low).1 = mark e x y low ∧
    (∀ f, e.data.length < f → markF f e x y low = mark e x y low) := by
  obtain ⟨-, hnodup, hev⟩ := markTF_inv (e.data.length + 1) e x y low hlen hb hx
  refine ⟨hnodup, hev, markTF_fst _ e x y low, ?_⟩
  intro f hf
  have hnm := nmL_le_length e.data
  exact markF_fuel_stable (nmL e.data) e f (e.data.length + 1) x y low (le_refl _)
    hlen hb hx (by omega) (by omega)

/-- C10 witness: a 1 x 2 grid where the seed at (0,0) floods its
neighbor; the two events are distinct and extra fuel changes nothing. -/
theorem claim_C10_witness :
    (markTF 3 ⟨2, 1, [5, 9]⟩ 0 0 3).2.Nodup ∧
    markF 7 ⟨2, 1, [5, 9]⟩ 0 0 3 = mark ⟨2, 1, [5, 9]⟩ 0 0 3 :=
  ⟨(claim_C10 ⟨2, 1, [5, 9]⟩ 0 0 3 (by decide) (by decide) (by decide)).1,
   (claim_C10 ⟨2, 1, [5, 9]⟩ 0 0 3 (by decide) (by decide) (by decide)).2.2.2 7 (by decide)⟩

/-! ## Statistics as the spec words them (C3)

The claim's reading of the statistics: mean and population standard
deviation computed with integer sum and sum-of-squares and the *final
division performed in floating point* (i.e. exact, not truncating), and
the thresholds mu + 2 sigma / mu + sigma *saturated* into [0, 255].
These definitions follow the spec's words, to be compared with the
source-derived meanT / varT / highThresholdT / lowThresholdT above. -/

/-- Spec-side mean: the integer sum divided exactly (floating point),
not the truncating unsigned division the source performs. -/
def meanSpec (e : Grid) : ℚ := (gridSum e : ℚ) / (numPixels e : ℚ)

/-- Spec-side integer sum of squares of the pixel values. -/
def sumSqSpec (e : Grid) : Nat :=
  (List.range (numPixels e)).foldl (fun s i => s + (e.data.getD i 0) ^ 2) 0

/-- Spec-side population variance, E[v^2] - mu^2. -/
def varSpec (e : Grid) : ℚ := (sumSqSpec e : ℚ) / (numPixels e : ℚ) - meanSpec e ^ 2

/-- s is the spec-side population standard deviation of e. -/
def isStdDevSpec (e : Grid) (s : ℚ) : Prop := 0 ≤ s ∧ s ^ 2 = varSpec e

/-- Saturation into the 8-bit range [0, 255], the spec's words. -/
def saturate255 (t : ℚ) : ℚ := max 0 (min t 255)

/-- C3, counterexample.  On the 1 x 2 grid [1, 2] the spec-side low
threshold is mu + sigma = 3/2 + 1/2 = 2 (already inside [0,255], so
saturation keeps it at 2), but the source computes mean = 3/2 truncated
to 1 by the unsigned division, squared deviations 0 + 1, variance
1/2 truncated to 0, stddev 0, and a low threshold of 1 — not the
saturated spec value 2. -/
theorem claim_C3_cex :
    lowThresholdT ⟨2, 1, [1, 2]⟩ = 1 ∧
    isStdDevSpec ⟨2, 1, [1, 2]⟩ (1 / 2) ∧
    saturate255 (meanSpec ⟨2, 1, [1, 2]⟩ + 1 / 2) = 2 ∧
    (1 : ℚ) ≠ 2 := by
  have hsum : gridSum ⟨2, 1, [1, 2]⟩ = 3 := by decide
  have hssq : sumSqSpec ⟨2, 1, [1, 2]⟩ = 5 := by decide
  have hn : numPixels ⟨2, 1, [1, 2]⟩ = 2 := by decide
  refine ⟨by decide, ⟨by norm_num, ?_⟩, ?_, by norm_num⟩
  · unfold varSpec meanSpec
    rw [hsum, hssq, hn]
    norm_num
  · unfold saturate255 meanSpec
    rw [hsum, hn]
    norm_num

/-- C3, amended.  The source computes the statistics with truncating
integer divisions: mean = sum / numPixels (unsigned division of the
mod-2^32 sum), variance = (sum of squared deviations from that truncated
mean) / numPixels (unsigned division), stddev = sqrt of that; the
thresholds mean + 2 sigma and mean + sigma are narrowed into an unsigned
char, which truncates the fraction and does not saturate.  The statement
is scoped to where the program's float arithmetic is exact: the sum of
squared deviations stays below 2^24 (the first hypothesis — beyond it
the float round-trip accumulation of sumSq rounds and the stored
statistics can fall below these values) and both thresholds lie in the 8-bit range
(hypotheses hh, hl — at 256 or above the narrowing is out-of-range).
There the stored thresholds are exactly the real floors of
mean + 2 sqrt(var) and mean + sqrt(var). -/
theorem claim_C3 (e : Grid)
    (_hsq : sumSqT e < 2 ^ 24)
    (hh : meanT e + natSqrt (4 * varT e) < 256)
    (hl : meanT e + natSqrt (varT e) < 256) :
    ((highThresholdT e : ℤ) = ⌊(meanT e : ℝ) + 2 * Real.sqrt (varT e)⌋) ∧
    ((lowThresholdT e : ℤ) = ⌊(meanT e : ℝ) + Real.sqrt (varT e)⌋) := by
  have h4 : (2 : ℝ) * Real.sqrt (varT e) = Real.sqrt ((4 * varT e : ℕ) : ℝ) := by
    rw [show ((4 * varT e : ℕ) : ℝ) = 4 * (varT e : ℝ) by push_cast; ring]
    rw [Real.sqrt_mul (by norm_num) _]
    rw [show Real.sqrt 4 = 2 by
      rw [show (4 : ℝ) = 2 ^ 2 by norm_num, Real.sqrt_sq (by norm_num)]]
  constructor
  · unfold highThresholdT
    rw [Nat.mod_eq_of_lt hh, natSqrt_eq_sqrt]
    rw [show (meanT e : ℝ) + 2 * Real.sqrt (varT e)
          = Real.sqrt ((4 * varT e : ℕ) : ℝ) + (meanT e : ℕ) by rw [← h4]; ring]
    rw [Int.floor_add_nat, Real.floor_real_sqrt_eq_nat_sqrt]
    push_cast
    ring
  · unfold lowThresholdT
    rw [Nat.mod_eq_of_lt hl, natSqrt_eq_sqrt]
    rw [show (meanT e : ℝ) + Real.sqrt (varT e)
          = Real.sqrt ((varT e : ℕ) : ℝ) + (meanT e : ℕ) by ring]
    rw [Int.floor_add_nat, Real.floor_real_sqrt_eq_nat_sqrt]
    push_cast
    ring

/-- C7.  For every input image, after gradientInGray every border pixel
(x = 0, x = W-1, y = 0 or y = H-1) of the magnitude grid is 0 and of the
direction grid holds the initialized default pair (0, 0) — the encoding
of the float angle 0.0. The gradient loop writes only at non-border
pixels, and a fresh grid starts at 0. -/
theorem claim_C7 (image : RGBImage) (x y : Int)
    (_hb : inBounds image.w image.h x y)
    (hborder : x = 0 ∨ x = (image.w : Int) - 1 ∨ y = 0 ∨ y = (image.h : Int) - 1) :
    getL (gradientInGray image (zeroGrid image.w image.h) (zeroDirGrid image.w image.h)).1 x y = 0 ∧
    dgetL (gradientInGray image (zeroGrid image.w image.h) (zeroDirGrid image.w image.h)).2 x y = (0, 0) := by
  have hstep : ∀ (gd : Grid × DirGrid) (i : Nat),
      (getL gd.1 x y = 0 ∧ dgetL gd.2 x y = (0, 0)) →
      (getL (gradStep (grayOf image) gd i).1 x y = 0 ∧
       dgetL (gradStep (grayOf image) gd i).2 x y = (0, 0)) := by
    intro gd i hP
    simp only [gradStep]
    split
    · rename_i hc
      have hne : ¬ ((xyOf (grayOf image).w i).1 = x ∧ (xyOf (grayOf image).w i).2 = y) := by
        intro hc2
        have hgw : (grayOf image).w = image.w := rfl
        have hgh : (grayOf image).h = image.h := rfl
        rw [hc2.1, hc2.2] at hc
        rw [hgw, hgh] at hc
        rcases hborder with h | h | h | h <;> omega
      exact ⟨by rw [getL_setL_ne _ _ _ _ _ _ hne]; exact hP.1,
             by rw [dgetL_dsetL_ne _ _ _ _ _ _ hne]; exact hP.2⟩
    · exact hP
  have h := foldl_invariant (gradStep (grayOf image))
    (fun gd => getL gd.1 x y = 0 ∧ dgetL gd.2 x y = (0, 0)) hstep
    (List.range ((grayOf image).w * (grayOf image).h))
    (zeroGrid image.w image.h, zeroDirGrid image.w image.h)
    ⟨getL_zeroGrid _ _ _ _, dgetL_zeroDirGrid _ _ _ _⟩
  exact h

/-- A concrete non-uniform 3 x 3 probe image. -/
def borderProbe : RGBImage :=
  ⟨3, 3, [(9,1,2), (3,4,5), (6,7,8), (1,1,1), (200,10,30), (2,2,2), (5,5,5), (7,7,7), (8,8,8)]⟩

/-- C7 witness: the top-left corner of a concrete 3 x 3 image. -/
theorem claim_C7_witness :
    inBounds borderProbe.w borderProbe.h 0 0 ∧
    (getL (gradientInGray borderProbe (zeroGrid borderProbe.w borderProbe.h)
        (zeroDirGrid borderProbe.w borderProbe.h)).1 0 0 = 0 ∧
     dgetL (gradientInGray borderProbe (zeroGrid borderProbe.w borderProbe.h)
        (zeroDirGrid borderProbe.w borderProbe.h)).2 0 0 = (0, 0)) :=
  ⟨by decide, claim_C7 borderProbe 0 0 (by decide) (Or.inl rfl)⟩

/-! ## calculateGradient in closed form (C8) -/

/-- Round-to-nearest of a square root, the spec's words
round(sqrt n) = floor(sqrt n + 1/2), computed exactly (used only to
compare the spec's rounding with the code's truncation). -/
def roundSqrt (n : Nat) : Nat := (natSqrt (4 * n) + 1) / 2

/-- C8, counterexample.  On a 3 x 3 grid with pixels 1 at (0,2) and 4 at
(2,2), the center Sobel responses are Gx = 5 and Gy = 3; the claim's
magnitude round(sqrt(34)) is 6, but the code stores the truncation
floor(sqrt 34) = 5 (the double sqrt is converted to the unsigned 8-bit
grid by truncation toward zero, not rounding). -/
theorem claim_C8_cex :
    calculateGradient ⟨3, 3, [0, 0, 0, 0, 0, 0, 1, 0, 4]⟩ 1 1 = (5, 5, 3) ∧
    roundSqrt (5 ^ 2 + 3 ^ 2) = 6 ∧ (5 : Nat) ≠ 6 := by
  refine ⟨by decide, by decide, by decide⟩

/-- C8, amended.  For every pixel, calculateGradient convolves the 3 x 3
neighborhood with the Sobel kernel [[-1,0,1],[-2,0,2],[-1,0,1]]
(`SOBEL_X`, first index the x offset) and with its plain transpose
(`SOBEL_Y` — not the transpose-negation), and returns the magnitude
floor(sqrt(Gx^2 + Gy^2)) truncated to 8 bits together with the direction
atan2(Gy, Gx) in degrees, encoded here by the pair (Gx, Gy). -/
theorem claim_C8 (gray : Grid) (x y : Int) :
    calculateGradient gray x y =
      (let gx := (getL gray (x-1) (y+1) : Int) + 2 * (getL gray x (y+1) : Int)
            + (getL gray (x+1) (y+1) : Int) - (getL gray (x-1) (y-1) : Int)
            - 2 * (getL gray x (y-1) : Int) - (getL gray (x+1) (y-1) : Int)
       let gy := (getL gray (x+1) (y-1) : Int) + 2 * (getL gray (x+1) y : Int)
            + (getL gray (x+1) (y+1) : Int) - (getL gray (x-1) (y-1) : Int)
            - 2 * (getL gray (x-1) y : Int) - (getL gray (x-1) (y+1) : Int)
       (natSqrt ((gx ^ 2 + gy ^ 2).toNat) % 256, gx, gy)) := by
  have hgx : (offs3x3.foldl
      (fun s ij => s + kcoef SOBEL_X ij.1 ij.2 * (getL gray (x + ij.1) (y + ij.2) : Int)) 0) =
      (getL gray (x-1) (y+1) : Int) + 2 * (getL gray x (y+1) : Int)
        + (getL gray (x+1) (y+1) : Int) - (getL gray (x-1) (y-1) : Int)
        - 2 * (getL gray x (y-1) : Int) - (getL gray (x+1) (y-1) : Int) := by
    have k1 : kcoef SOBEL_X (-1) (-1) = -1 := rfl
    have k2 : kcoef SOBEL_X (-1) 0 = 0 := rfl
    have k3 : kcoef SOBEL_X (-1) 1 = 1 := rfl
    have k4 : kcoef SOBEL_X 0 (-1) = -2 := rfl
    have k5 : kcoef SOBEL_X 0 0 = 0 := rfl
    have k6 : kcoef SOBEL_X 0 1 = 2 := rfl
    have k7 : kcoef SOBEL_X 1 (-1) = -1 := rfl
    have k8 : kcoef SOBEL_X 1 0 = 0 := rfl
    have k9 : kcoef SOBEL_X 1 1 = 1 := rfl
    simp only [offs3x3, List.foldl_cons, List.foldl_nil, k1, k2, k3, k4, k5, k6, k7, k8, k9,
      add_zero]
    simp only [show x + (-1 : Int) = x - 1 from by ring, show y + (-1 : Int) = y - 1 from by ring]
    ring
  have hgy : (offs3x3.foldl
      (fun s ij => s + kcoef SOBEL_Y ij.1 ij.2 * (getL gray (x + ij.1) (y + ij.2) : Int)) 0) =
      (getL gray (x+1) (y-1) : Int) + 2 * (getL gray (x+1) y : Int)
        + (getL gray (x+1) (y+1) : Int) - (getL gray (x-1) (y-1) : Int)
        - 2 * (getL gray (x-1) y : Int) - (getL gray (x-1) (y+1) : Int) := by
    have k1 : kcoef SOBEL_Y (-1) (-1) = -1 := rfl
    have k2 : kcoef SOBEL_Y (-1) 0 = -2 := rfl
    have k3 : kcoef SOBEL_Y (-1) 1 = -1 := rfl
    have k4 : kcoef SOBEL_Y 0 (-1) = 0 := rfl
    have k5 : kcoef SOBEL_Y 0 0 = 0 := rfl
    have k6 : kcoef SOBEL_Y 0 1 = 0 := rfl
    have k7 : kcoef SOBEL_Y 1 (-1) = 1 := rfl
    have k8 : kcoef SOBEL_Y 1 0 = 2 := rfl
    have k9 : kcoef SOBEL_Y 1 1 = 1 := rfl
    simp only [offs3x3, List.foldl_cons, List.foldl_nil, k1, k2, k3, k4, k5, k6, k7, k8, k9,
      add_zero]
    simp only [show x + (-1 : Int) = x - 1 from by ring, show y + (-1 : Int) = y - 1 from by ring]
    ring
  simp only [calculateGradient]
  rw [hgx, hgy]

/-! ## Pointwise description of nonMaxSuppression (C9) -/

/-- The value nmsPixel writes is the center magnitude or 0. -/
theorem nmsPixel_le (gradient : Grid) (direction : DirGrid) (x y : Int) :
    nmsPixel gradient direction x y ≤ getL gradient x y := by
  simp only [nmsPixel]
  split_ifs <;> simp

/-- Suppression preserves the edge grid's dimensions and size. -/
theorem nms_shape (edge gradient : Grid) (direction : DirGrid) :
    (nonMaxSuppression edge gradient direction).w = edge.w ∧
    (nonMaxSuppression edge gradient direction).h = edge.h ∧
    (nonMaxSuppression edge gradient direction).data.length = edge.data.length := by
  unfold nonMaxSuppression
  refine foldl_invariant (nmsStep edge.w edge.h gradient direction)
    (fun e => e.w = edge.w ∧ e.h = edge.h ∧ e.data.length = edge.data.length)
    ?_ _ edge ⟨rfl, rfl, rfl⟩
  intro e i hP
  simp only [nmsStep]
  split
  · exact ⟨by rw [setL_w]; exact hP.1, by rw [setL_h]; exact hP.2.1,
           by rw [setL_len]; exact hP.2.2⟩
  · exact hP

/-- Pointwise value of the suppression output started from a fresh zero
grid of the gradient's dimensions: nmsPixel at non-border pixels, 0
everywhere else. -/
theorem nms_values (gradient : Grid) (direction : DirGrid) (x y : Int) :
    getL (nonMaxSuppression (zeroGrid gradient.w gradient.h) gradient direction) x y =
      (if 0 < x ∧ x < (gradient.w : Int) - 1 ∧ 0 < y ∧ y < (gradient.h : Int) - 1
       then nmsPixel gradient direction x y else 0) := by
  set W := gradient.w with hW
  set H := gradient.h with hH
  by_cases hb : inBounds W H x y
  · -- the invariant, indexed by the number of processed pixels
    have main : ∀ n, n ≤ W * H →
        (((List.range n).foldl (nmsStep W H gradient direction) (zeroGrid W H)).w = W ∧
         ((List.range n).foldl (nmsStep W H gradient direction) (zeroGrid W H)).h = H ∧
         ((List.range n).foldl (nmsStep W H gradient direction) (zeroGrid W H)).data.length = W * H ∧
         getL ((List.range n).foldl (nmsStep W H gradient direction) (zeroGrid W H)) x y =
           (if (0 < x ∧ x < (W : Int) - 1 ∧ 0 < y ∧ y < (H : Int) - 1) ∧
               x.toNat + y.toNat * W < n
            then nmsPixel gradient direction x y else 0)) := by
      intro n
      induction n with
      | zero =>
        intro _
        simp only [List.range_zero, List.foldl_nil]
        refine ⟨rfl, rfl, by simp [zeroGrid], ?_⟩
        rw [if_neg (by omega), getL_zeroGrid]
      | succ n ih =>
        intro hn
        obtain ⟨hw, hh, hl, hval⟩ := ih (Nat.le_of_succ_le hn)
        rw [List.range_succ, List.foldl_append, List.foldl_cons, List.foldl_nil]
        set acc := (List.range n).foldl (nmsStep W H gradient direction) (zeroGrid W H) with hacc
        refine ⟨?_, ?_, ?_, ?_⟩
        · simp only [nmsStep]
          split
          · rw [setL_w, hw]
          · exact hw
        · simp only [nmsStep]
          split
          · rw [setL_h, hh]
          · exact hh
        · simp only [nmsStep]
          split
          · rw [setL_len, hl]
          · exact hl
        · by_cases heq : x.toNat + y.toNat * W = n
          · -- this iteration touches exactly (x, y)
            have hxy : xyOf W n = (x, y) := by rw [← heq]; exact lin_xyOf W H x y hb
            simp only [nmsStep, hxy]
            by_cases hint : 0 < x ∧ x < (W : Int) - 1 ∧ 0 < y ∧ y < (H : Int) - 1
            · rw [if_pos hint]
              have hblen : inBounds acc.w acc.h x y := by rw [hw, hh]; exact hb
              rw [getL_setL_self acc x y _ hblen (by
                show acc.w * acc.h ≤ acc.data.length
                rw [hw, hh, hl])]
              rw [if_pos ⟨hint, by omega⟩]
            · rw [if_neg hint, hval, if_neg (by intro hc; exact hint hc.1),
                if_neg (by intro hc; exact hint hc.1)]
          · -- another pixel is touched; the read is unchanged
            have hpre : getL (nmsStep W H gradient direction acc n) x y = getL acc x y := by
              simp only [nmsStep]
              split
              · apply getL_setL_ne
                intro hc
                apply heq
                rw [← xyOf_lin W n, hc.1, hc.2]
              · rfl
            rw [hpre, hval]
            by_cases hint : 0 < x ∧ x < (W : Int) - 1 ∧ 0 < y ∧ y < (H : Int) - 1
            · by_cases hlt : x.toNat + y.toNat * W < n
              · rw [if_pos ⟨hint, hlt⟩, if_pos ⟨hint, by omega⟩]
              · rw [if_neg (by intro hc; exact hlt hc.2),
                  if_neg (by intro hc; omega)]
            · rw [if_neg (by intro hc; exact hint hc.1),
                if_neg (by intro hc; exact hint hc.1)]
    have hfin := main (W * H) (le_refl _)
    show getL ((List.range (W * H)).foldl (nmsStep W H gradient direction) (zeroGrid W H)) x y = _
    rw [hfin.2.2.2]
    by_cases hint : 0 < x ∧ x < (W : Int) - 1 ∧ 0 < y ∧ y < (H : Int) - 1
    · have hlt : x.toNat + y.toNat * W < W * H := by
        obtain ⟨hx0, hxw, hy0, hyh⟩ := hb
        have hx : x.toNat < W := by omega
        have hy : y.toNat < H := by omega
        calc x.toNat + y.toNat * W < W + y.toNat * W := by omega
          _ = (y.toNat + 1) * W := by ring
          _ ≤ H * W := Nat.mul_le_mul_right _ (by omega)
          _ = W * H := Nat.mul_comm _ _
      rw [if_pos ⟨hint, hlt⟩, if_pos hint]
    · rw [if_neg (by intro hc; exact hint hc.1), if_neg hint]
  · -- out of bounds: the read is 0 and the pixel is not interior
    have hsh := nms_shape (zeroGrid W H) gradient direction
    have h0 : getL (nonMaxSuppression (zeroGrid W H) gradient direction) x y = 0 := by
      unfold getL
      rw [if_neg (by rw [hsh.1, hsh.2.1]; exact hb)]
    rw [h0, if_neg]
    intro hc
    obtain ⟨h1, h2, h3, h4⟩ := hc
    exact hb ⟨by omega, by omega, by omega, by omega⟩

/-- C9.  The suppression output (into a fresh zero grid of the
gradient's dimensions) never exceeds the gradient magnitude pointwise,
and at every non-border pixel it is exactly nmsPixel: the pixel's own
magnitude when that magnitude is at least both neighbors selected along
the discretized gradient direction (ties retained by the non-strict
comparison), and 0 otherwise. -/
theorem claim_C9 (gradient : Grid) (direction : DirGrid) :
    (∀ x y : Int,
       getL (nonMaxSuppression (zeroGrid gradient.w gradient.h) gradient direction) x y ≤
       getL gradient x y) ∧
    (∀ x y : Int, 0 < x → x < (gradient.w : Int) - 1 → 0 < y → y < (gradient.h : Int) - 1 →
       getL (nonMaxSuppression (zeroGrid gradient.w gradient.h) gradient direction) x y =
       nmsPixel gradient direction x y) := by
  constructor
  · intro x y
    rw [nms_values]
    split
    · exact nmsPixel_le gradient direction x y
    · exact Nat.zero_le _
  · intro x y h1 h2 h3 h4
    rw [nms_values, if_pos ⟨h1, h2, h3, h4⟩]

/-- A concrete 3 x 3 magnitude grid and direction grid for the witness. -/
def gradProbe : Grid := ⟨3, 3, [10, 20, 30, 40, 50, 60, 70, 80, 90]⟩

/-- Direction pairs for the witness (various angles). -/
def dirProbe : DirGrid := ⟨3, 3, [(1,0), (1,1), (0,1), (-1,1), (1,0), (2,1), (0,0), (1,-2), (5,0)]⟩

/-- C9 witness: concrete grids, checked at the center pixel and at a
border pixel. -/
theorem claim_C9_witness :
    (getL (nonMaxSuppression (zeroGrid gradProbe.w gradProbe.h) gradProbe dirProbe) 1 1 ≤
      getL gradProbe 1 1) ∧
    (getL (nonMaxSuppression (zeroGrid gradProbe.w gradProbe.h) gradProbe dirProbe) 1 1 =
      nmsPixel gradProbe dirProbe 1 1) :=
  ⟨(claim_C9 gradProbe dirProbe).1 1 1,
   (claim_C9 gradProbe dirProbe).2 1 1 (by decide) (by decide) (by decide) (by decide)⟩

/-- C3 witness: the 1 x 2 grid [1, 2], inside the exact regime, where
both thresholds are 1. -/
theorem claim_C3_witness :
    (sumSqT ⟨2, 1, [1, 2]⟩ < 2 ^ 24) ∧
    (meanT ⟨2, 1, [1, 2]⟩ + natSqrt (4 * varT ⟨2, 1, [1, 2]⟩) < 256) ∧
    ((highThresholdT ⟨2, 1, [1, 2]⟩ : ℤ) =
      ⌊(meanT ⟨2, 1, [1, 2]⟩ : ℝ) + 2 * Real.sqrt (varT ⟨2, 1, [1, 2]⟩)⌋) ∧
    ((lowThresholdT ⟨2, 1, [1, 2]⟩ : ℤ) =
      ⌊(meanT ⟨2, 1, [1, 2]⟩ : ℝ) + Real.sqrt (varT ⟨2, 1, [1, 2]⟩)⌋) :=
  ⟨by decide, by decide,
   (claim_C3 ⟨2, 1, [1, 2]⟩ (by decide) (by decide) (by decide)).1,
   (claim_C3 ⟨2, 1, [1, 2]⟩ (by decide) (by decide) (by decide)).2⟩

end EdgeDetect
